import Mathlib

/-
Verification of the asset-reference resolution and rewriting engine of
obs-scene-transporter (obsscenetransporter/scenecollection.py and
obsscenetransporter/pathformatter.py), as a shallow embedding.

Paths and archive member names are Lean `String`s.  Every operation is
implemented by structural recursion over the underlying character list so
that all definitions evaluate by kernel reduction on concrete inputs.
-/

/-! ### String primitives: models of the Python str / os.path operations
used by the source. -/

/-- The split marker `"/./"` of the Asset Path Token format, as a character
list. -/
def mrk : List Char := ['/', '.', '/']

/-- Number of occurrences of `pat` in a character list, overlapping
occurrences included: one per suffix of which `pat` is a prefix. -/
def countOcc (pat : List Char) : List Char → Nat
  | [] => 0
  | c :: cs => (if pat.isPrefixOf (c :: cs) then 1 else 0) + countOcc pat cs

/-- Number of occurrences of the split marker `"/./"` in a string. -/
def countMarker (s : String) : Nat := countOcc mrk s.toList

/-- Everything after the first occurrence of `pat`; `[]` when `pat` does not
occur.  Model of Python `s.partition(pat)[2]`. -/
def partAfter (pat : List Char) : List Char → List Char
  | [] => []
  | c :: cs => if pat.isPrefixOf (c :: cs) then (c :: cs).drop pat.length else partAfter pat cs

/-- Model of `s.partition("/./")[2]` as used by `update_path`
(scenecollection.py line 216) and `export_scenes` (line 80). -/
def partitionTail (s : String) : String := (partAfter mrk s.toList).asString

/-- `breakLast c cs = some (p, q)` when `cs = p ++ [c] ++ q` with `c ∉ q`;
`none` when `c ∉ cs`.  Splitting a path at its last slash, the common core of
`os.path.dirname` and `os.path.basename`. -/
def breakLast (c : Char) : List Char → Option (List Char × List Char)
  | [] => none
  | x :: xs =>
    match breakLast c xs with
    | some (p, q) => some (x :: p, q)
    | none => if x = c then some ([], xs) else none

/-- Strip trailing copies of `c` (Python `str.rstrip` with one character). -/
def rstripChar (c : Char) (l : List Char) : List Char :=
  (l.reverse.dropWhile (fun x => x = c)).reverse

/-- Model of `os.path.basename` (posixpath): the part after the last `"/"`,
or the whole string when it has no slash. -/
def pyBasename (s : String) : String :=
  match breakLast '/' s.toList with
  | some (_, q) => q.asString
  | none => s

/-- Model of `os.path.dirname` (posixpath): the part up to and including the
last `"/"`, with trailing slashes stripped unless that head is all slashes;
`""` when the string has no slash. -/
def pyDirname (s : String) : String :=
  match breakLast '/' s.toList with
  | none => ""
  | some (p, _) =>
    let head := p ++ ['/']
    if head.all (fun x => x = '/') then head.asString else (rstripChar '/' head).asString

/-- Split a character list at every occurrence of `c` (Python `str.split`
with a one-character separator; empty parts are kept). -/
def splitChar (c : Char) (acc : List Char) : List Char → List (List Char)
  | [] => [acc.reverse]
  | x :: xs => if x = c then acc.reverse :: splitChar c [] xs else splitChar c (x :: acc) xs

/-- Model of `path.split(".")` as used by `_dict_path` on string patterns. -/
def dotSplit (s : String) : List String :=
  (splitChar '.' [] s.toList).map (fun l => l.asString)

/-- Model of operating-system path normalization as applied when a path is
resolved (`os.path.isfile`/`isdir`) or wrapped in `pathlib.Path`: split on
`"/"`, drop empty and `"."` components, and rebuild, keeping a leading slash
for absolute paths. -/
def normPath (s : String) : String :=
  let parts := splitChar '/' [] s.toList
  let keep := parts.filter (fun p => !p.isEmpty && !(p == ['.']))
  ((if s.toList.head? = some '/' then ['/'] else []) ++ List.intercalate ['/'] keep).asString

/-- Model of `s.startswith(pat)`. -/
def sStartsWith (s pat : String) : Bool := pat.toList.isPrefixOf s.toList

/-- Model of `s.endswith(pat)`. -/
def sEndsWith (s pat : String) : Bool := pat.toList.isSuffixOf s.toList

/-- Character length of a string (Python `len`). -/
def sLen (s : String) : Nat := s.toList.length

/-- Model of the Python slice `s[n:]` (by characters). -/
def sDrop (s : String) (n : Nat) : String := (s.toList.drop n).asString

example : countMarker "/a/././b" = 2 := by decide
example : countMarker "assets/a.jpg" = 0 := by decide
example : partitionTail "/home/u/./media/x.mp4" = "media/x.mp4" := by decide
example : partitionTail "noMarkerHere" = "" := by decide
example : pyDirname "/a/b/c.txt" = "/a/b" := by decide
example : pyBasename "/a/b/c.txt" = "c.txt" := by decide
example : pyDirname "/a" = "/" := by decide
example : pyDirname "abc" = "" := by decide
example : normPath "/a/./b/" = "/a/b" := by decide
example : normPath "/a/b" = "/a/b" := by decide
example : dotSplit "settings.files.value" = ["settings", "files", "value"] := by decide
example : sDrop "assets/dir/i.jpg" 7 = "dir/i.jpg" := by decide

/-! ### The document model

`json.load` yields a tree of dicts, lists, strings, numbers, booleans and
null.  The mutual inductive below embeds that tree; arrays and objects are
their own inductives (rather than nested `List`s) so that every traversal is
plain structural recursion and evaluates by kernel reduction. -/

mutual

/-- A JSON value as produced by `json.load`. -/
inductive JVal : Type where
  | str : String → JVal
  | num : Int → JVal
  | jbool : Bool → JVal
  | jnull : JVal
  | arr : JArr → JVal
  | obj : JObj → JVal

/-- A JSON array. -/
inductive JArr : Type where
  | anil : JArr
  | acons : JVal → JArr → JArr

/-- A JSON object: an ordered sequence of key/value fields (Python dicts
preserve insertion order; keys are unique). -/
inductive JObj : Type where
  | onil : JObj
  | ocons : String → JVal → JObj → JObj

end

/-- Model of `o[k]` / `k in o` on a dict: the value at the first matching
key. -/
def getKey : JObj → String → Option JVal
  | .onil, _ => none
  | .ocons k v fs, key => if k = key then some v else getKey fs key

/-- Model of `k in o` on a dict. -/
def memKey (fs : JObj) (key : String) : Bool := (getKey fs key).isSome

/-- Model of the in-place assignment `o[k] = f(o[k])`: replace the value at
the first matching key. -/
def applyKeyFirst (f : JVal → JVal) : JObj → String → JObj
  | .onil, _ => .onil
  | .ocons k v fs, key =>
    if k = key then .ocons k (f v) fs else .ocons k v (applyKeyFirst f fs key)

/-- The fields of an object as a list of pairs. -/
def JObj.pairs : JObj → List (String × JVal)
  | .onil => []
  | .ocons k v fs => (k, v) :: fs.pairs

/-- The elements of an array as a list. -/
def JArr.toList : JArr → List JVal
  | .anil => []
  | .acons x xs => x :: xs.toList

/-- Map a function over the elements of an array (in-place mutation of each
list element, functionally). -/
def arrMap (f : JVal → JVal) : JArr → JArr
  | .anil => .anil
  | .acons x xs => .acons (f x) (arrMap f xs)

mutual

/-- Read-only half of `_dict_path` (scenecollection.py lines 131-155): the
list of `(container, key)` pairs on which the callback is invoked, in
invocation order.  A list node recurses into every element with the same
pattern; a dict node with a one-step pattern whose key is present yields one
callback; a dict node with a longer pattern recurses into the value at the
first step's key; anything else (absent key, empty pattern, leaf node)
yields nothing. -/
def dictPathCalls : JVal → List String → List (JObj × String)
  | .arr l, path => dictPathCallsArr l path
  | .obj fields, [k] => if memKey fields k then [(fields, k)] else []
  | .obj fields, k :: k2 :: rest => dictPathCallsObj fields k (k2 :: rest)
  | .obj _, [] => []
  | _, _ => []

/-- `_dict_path` callback positions for each element of a list node. -/
def dictPathCallsArr : JArr → List String → List (JObj × String)
  | .anil, _ => []
  | .acons x xs, path => dictPathCalls x path ++ dictPathCallsArr xs path

/-- `_dict_path` callback positions inside the value at the first matching
key `k` (the `o[path[0]]` recursion of `_dict_path`). -/
def dictPathCallsObj : JObj → String → List String → List (JObj × String)
  | .onil, _, _ => []
  | .ocons k' v fs, k, rest =>
    if k' = k then dictPathCalls v rest else dictPathCallsObj fs k rest

end

mutual

/-- Mutating half of `_dict_path`: the document after a callback that
replaces the value of each matched field by `f` of it has run at every
position of `dictPathCalls`, in place. -/
def dictPathMap (f : JVal → JVal) : JVal → List String → JVal
  | .arr l, path => .arr (dictPathMapArr f l path)
  | .obj fields, [k] =>
    if memKey fields k then .obj (applyKeyFirst f fields k) else .obj fields
  | .obj fields, k :: k2 :: rest => .obj (dictPathMapObj f fields k (k2 :: rest))
  | .obj fields, [] => .obj fields
  | o, _ => o

/-- `dictPathMap` on each element of a list node. -/
def dictPathMapArr (f : JVal → JVal) : JArr → List String → JArr
  | .anil, _ => .anil
  | .acons x xs, path => .acons (dictPathMap f x path) (dictPathMapArr f xs path)

/-- `dictPathMap` inside the value at the first matching key. -/
def dictPathMapObj (f : JVal → JVal) : JObj → String → List String → JObj
  | .onil, _, _ => .onil
  | .ocons k' v fs, k, rest =>
    if k' = k then .ocons k' (dictPathMap f v rest) fs else .ocons k' v (dictPathMapObj f fs k rest)

end

/-- `_dict_path` with a dotted string pattern: the pattern is split at `"."`
(scenecollection.py lines 147-148). -/
def dictPathCallsS (o : JVal) (pat : String) : List (JObj × String) :=
  dictPathCalls o (dotSplit pat)

/-- Mutating `_dict_path` with a dotted string pattern. -/
def dictPathMapS (f : JVal → JVal) (o : JVal) (pat : String) : JVal :=
  dictPathMap f o (dotSplit pat)

/-- The value `o[k]` a callback receives at a visited `(container, key)`
pair (the key is always present at a visited pair). -/
def callVal (pr : JObj × String) : JVal := (getKey pr.1 pr.2).getD JVal.jnull

/-- Look a key up in a document node, `none` when the node is not an object
(model of `scenes["sources"]` etc.). -/
def jGet (o : JVal) (k : String) : Option JVal :=
  match o with
  | .obj fs => getKey fs k
  | _ => none

/-! ### Asset schema registry and the two passes

`_process_assets_in_sources` / `_process_assets_in_transitions` consult the
per-variant registry and drive `_dict_path`; `_find_assets` instantiates the
callback with a read (collect), `_update_assets` with a write (rewrite). -/

/-- `o[k] == v` for a string constant `v`: model of the variant tests
`scene["versioned_id"] in ("ffmpeg_source",)` and
`t["id"] == "obs_stinger_transition"`.  A document whose source/transition
lacks the discriminating key would raise `KeyError` in Python; the model
treats it as not matching any variant. -/
def keyStrEq (o : JVal) (k v : String) : Bool :=
  match jGet o k with
  | some (.str s) => s == v
  | _ => false

/-- The `(container, key)` pairs `_process_assets_in_sources`
(scenecollection.py lines 157-174) invokes its callback on for one source,
in order: one registered dotted pattern per recognized `versioned_id`. -/
def sourceCalls (src : JVal) : List (JObj × String) :=
  (if keyStrEq src "versioned_id" "ffmpeg_source" then dictPathCallsS src "settings.local_file" else []) ++
  (if keyStrEq src "versioned_id" "image_source" then dictPathCallsS src "settings.file" else []) ++
  (if keyStrEq src "versioned_id" "slideshow" then dictPathCallsS src "settings.files.value" else []) ++
  (if keyStrEq src "versioned_id" "vlc_source" then dictPathCallsS src "settings.playlist.value" else [])

/-- The `(container, key)` pairs `_process_assets_in_transitions`
(lines 176-187) invokes its callback on for one transition. -/
def transCalls (t : JVal) : List (JObj × String) :=
  if keyStrEq t "id" "obs_stinger_transition" then dictPathCallsS t "settings.path" else []

/-- All callback positions of `_process_assets_in_sources` over
`scenes["sources"]`. -/
def processSourcesCalls (scenes : JVal) : List (JObj × String) :=
  match jGet scenes "sources" with
  | some (.arr l) => (l.toList.map sourceCalls).flatten
  | _ => []

/-- All callback positions of `_process_assets_in_transitions` over
`scenes["transitions"]`. -/
def processTransCalls (scenes : JVal) : List (JObj × String) :=
  match jGet scenes "transitions" with
  | some (.arr l) => (l.toList.map transCalls).flatten
  | _ => []

/-- The full visit of one pass (sources first, then transitions), shared by
`_find_assets` and `_update_assets`. -/
def processVisit (scenes : JVal) : List (JObj × String) :=
  processSourcesCalls scenes ++ processTransCalls scenes

/-- The values `o[k]` passed to the callback during one pass, in order. -/
def processVisitVals (scenes : JVal) : List JVal :=
  (processVisit scenes).map callVal

/-- Lexicographically sorted insertion. -/
def insertSorted (x : String) : List String → List String
  | [] => [x]
  | y :: ys => if decide (x ≤ y) then x :: y :: ys else y :: insertSorted x ys

/-- Insertion sort on strings. -/
def sortStrings : List String → List String
  | [] => []
  | x :: xs => insertSorted x (sortStrings xs)

/-- Model of Python `sorted(set(r))` on a list of strings. -/
def sortedSet (l : List String) : List String := sortStrings l.dedup

/-- `_find_assets` (lines 189-203): run the read-pass, expand each visited
string value through `check` (a `format_expanding_dirs`), and return the
sorted deduplicated union. -/
def findAssets (scenes : JVal) (check : String → List String) : List String :=
  sortedSet ((processVisitVals scenes).map (fun v =>
    match v with
    | .str s => check s
    | _ => [])).flatten

/-- The `update_path` closure of `_update_assets` (lines 213-216):
`c = check(o[k]); if c: o[k] = base + "/" + c.partition("/./")[2]`.
A falsy `c` (`None` or the empty string) leaves the field untouched. -/
def updatePathCb (base : String) (check : String → Option String) (s : String) : String :=
  match check s with
  | none => s
  | some c => if c = "" then s else base ++ "/" ++ partitionTail c

/-- Lift a string rewrite to a field value; `update_path` only ever runs on
string-valued asset fields (a non-string field would raise in Python). -/
def strFieldMap (g : String → String) : JVal → JVal
  | .str s => .str (g s)
  | v => v

/-- The mutate-pass on one source: the four conditional `_dict_path`
rewrites of `_process_assets_in_sources`, applied in source order. -/
def updateSource (f : JVal → JVal) (src : JVal) : JVal :=
  let s1 := if keyStrEq src "versioned_id" "ffmpeg_source" then dictPathMapS f src "settings.local_file" else src
  let s2 := if keyStrEq s1 "versioned_id" "image_source" then dictPathMapS f s1 "settings.file" else s1
  let s3 := if keyStrEq s2 "versioned_id" "slideshow" then dictPathMapS f s2 "settings.files.value" else s2
  let s4 := if keyStrEq s3 "versioned_id" "vlc_source" then dictPathMapS f s3 "settings.playlist.value" else s3
  s4

/-- The mutate-pass on one transition. -/
def updateTransition (f : JVal → JVal) (t : JVal) : JVal :=
  if keyStrEq t "id" "obs_stinger_transition" then dictPathMapS f t "settings.path" else t

/-- Rewrite the array value at top-level key `k` of the document by mapping
`g` over its elements in place; any other shape is left as is. -/
def mapTop (scenes : JVal) (k : String) (g : JVal → JVal) : JVal :=
  match scenes with
  | .obj fs =>
    match getKey fs k with
    | some (.arr l) => .obj (applyKeyFirst (fun _ => .arr (arrMap g l)) fs k)
    | _ => .obj fs
  | o => o

/-- `_update_assets` (lines 205-219): run the mutate-pass with callback
`update_path` over sources, then transitions. -/
def updateAssets (scenes : JVal) (base : String) (check : String → Option String) : JVal :=
  let f := strFieldMap (updatePathCb base check)
  mapTop (mapTop scenes "sources" (updateSource f)) "transitions" (updateTransition f)

/-! ### Device identifier translator -/

/-- `source_id_mappings` (scenecollection.py lines 27-36): per target OS, the
overlay mapping each Linux (neutral) source id to its platform-specific id. -/
def source_id_mappings : List (String × List (String × String)) :=
  [("Darwin", [("v4l2_input", "av_capture_input"), ("xshm_input", "display_capture")]),
   ("Windows", [("v4l2_input", "dshow_input"), ("xshm_input", "monitor_capture")])]

/-- First key whose value equals `x` in one overlay. -/
def lookupByValue : List (String × String) → String → Option String
  | [], _ => none
  | (k, v) :: rest, x => if x = v then some k else lookupByValue rest x

/-- First value whose key equals `x` in one overlay. -/
def lookupByKey : List (String × String) → String → Option String
  | [], _ => none
  | (k, v) :: rest, x => if x = k then some v else lookupByKey rest x

/-- Scan all overlays in table order for a platform-specific id equal to
`x`, returning its neutral counterpart (the `system == "Linux"` double loop
of `_map_source_id`, lines 230-235). -/
def scanOverlays : List (String × List (String × String)) → String → Option String
  | [], _ => none
  | (_, m) :: rest, x =>
    match lookupByValue m x with
    | some k => some k
    | none => scanOverlays rest x

/-- Translate a platform-specific id to its neutral (Linux) id; unknown ids
are returned unchanged. -/
def mapToNeutral (x : String) : String := (scanOverlays source_id_mappings x).getD x

/-- The overlay of one OS (`self.source_id_mappings[system]`). -/
def lookupOverlay : List (String × List (String × String)) → String → Option (List (String × String))
  | [], _ => none
  | (os, m) :: rest, x => if x = os then some m else lookupOverlay rest x

/-- Translate a neutral id to the id of `system` (the `else` branch of
`_map_source_id`, lines 236-240); ids absent from the overlay are returned
unchanged; `none` models the `KeyError` on an unrecognized `system`. -/
def mapToPlatform (system x : String) : Option String :=
  (lookupOverlay source_id_mappings system).map (fun m => (lookupByKey m x).getD x)

/-- `_map_source_id` (lines 221-240) as a value translation: toward Linux it
scans every overlay value; toward any other system it looks the neutral id
up in that system's overlay. -/
def mapSourceId (system x : String) : Option String :=
  if system = "Linux" then some (mapToNeutral x) else mapToPlatform system x

/-- Every platform-specific identifier appearing in the table. -/
def platformValues : List String :=
  (source_id_mappings.map (fun p => p.2.map (fun q => q.2))).flatten

/-- `_map_source_id` applied to property `prop` of one source dict: a
string value is translated, anything else is left unchanged (Python's `==`
against the table strings is false for non-strings; a missing key would
raise `KeyError`, not modelled). -/
def mapSourceProp (system : String) (fs : JObj) (prop : String) : JObj :=
  match getKey fs prop with
  | some (.str s) => applyKeyFirst (fun _ => .str ((mapSourceId system s).getD s)) fs prop
  | _ => fs

/-- `_fix_source_ids` on one source: translate `id`, then `versioned_id`
(lines 248-250). -/
def fixSource (system : String) (src : JVal) : JVal :=
  match src with
  | .obj fs => .obj (mapSourceProp system (mapSourceProp system fs "id") "versioned_id")
  | v => v

/-- `_fix_source_ids` (lines 242-250) over `scenes["sources"]`. -/
def fixSourceIds (system : String) (scenes : JVal) : JVal :=
  mapTop scenes "sources" (fixSource system)

/-- The effect of `_parse` (lines 252-265) on the document itself: the only
mutation `_parse` performs on `self.scenes` is `_fix_source_ids()` with its
default target `"Linux"`; everything else it computes is derived metadata.
Both `from_path` and the construction phase of `import_scenes` run
`_parse`. -/
def parseEffect (scenes : JVal) : JVal := fixSourceIds "Linux" scenes

/-! ### Export / import models -/

/-- `ObsStudioSceneCollection.asset_path_in_archive` (line 24). -/
def assetPathInArchive : String := "assets"

/-- The filesystem as seen by one invocation: the sets of existing regular
files and directories, as normalized absolute path strings. -/
structure FS where
  files : List String
  dirs : List String

/-- Model of `os.path.isfile`: resolution normalizes `"."` components. -/
def isfile (fs : FS) (p : String) : Bool := fs.files.contains (normPath p)

/-- Model of `os.path.isdir`. -/
def isdir (fs : FS) (p : String) : Bool := fs.dirs.contains (normPath p)

/-- `PathFormatter.format_file_name` (pathformatter.py lines 17-26):
`dirname(path) + "/./" + basename(path)` when `path` names an existing file
or directory, `None` otherwise. -/
def formatFileName (fs : FS) (path : String) : Option String :=
  if isfile fs path || isdir fs path then
    some (pyDirname path ++ "/./" ++ pyBasename path)
  else none

/-- `e` is a direct child entry of directory `p`: one further nonempty
slash-free name component. -/
def isDirectChild (p e : String) : Bool :=
  let pre := if sEndsWith p "/" then p else p ++ "/"
  sStartsWith e pre && decide (sLen pre < sLen e) &&
    (e.toList.drop (sLen pre)).all (fun c => c ≠ '/')

/-- Model of `Path(path).glob("*")`: every filesystem entry that is a direct
child of the (normalized) directory. -/
def childEntries (fs : FS) (path : String) : List String :=
  (fs.files ++ fs.dirs).filter (fun e => isDirectChild (normPath path) e)

/-- Model of `Path(e).relative_to(Path(base))` for the happy paths that
arise here; when `base` is not a parent of `e` (Python would raise), `e` is
returned. -/
def relTo (e base : String) : String :=
  if base = "" then e
  else if base = "/" then (if sStartsWith e "/" then sDrop e 1 else e)
  else if sStartsWith e (base ++ "/") then sDrop e (sLen base + 1) else e

/-- `PathFormatter.format_expanding_dirs` (pathformatter.py lines 28-44): a
file expands to its own token; a directory expands to one token per direct
child entry that is a file and whose name does not start with `"."`, with
the token split after the directory's parent; anything else expands to
nothing. -/
def formatExpandingDirs (fs : FS) (path : String) : List String :=
  if isfile fs path then [pyDirname path ++ "/./" ++ pyBasename path]
  else if isdir fs path then
    (childEntries fs path).filterMap (fun e =>
      if !(sStartsWith (pyBasename e) ".") && isfile fs e then
        some (pyDirname path ++ "/./" ++ relTo e (normPath (pyDirname path)))
      else none)
  else []

/-- `ZipPathFormatter.format_file_name` (pathformatter.py lines 57-60):
split after the configured archive prefix when the path starts with it,
otherwise return the path unchanged. -/
def zipFormatFileName (pfx path : String) : String :=
  if sStartsWith path pfx then pfx ++ "/./" ++ sDrop path (sLen pfx + 1) else path

/-- `ZipPathFormatter.format_expanding_dirs` (pathformatter.py lines 62-66)
over the archive's member name list. -/
def zipFormatExpandingDirs (names : List String) (path : String) : List String :=
  if path ∈ names then [path] else names.filter (fun n => sStartsWith n (path ++ "/"))

/-- The asset-writing loop of `export_scenes` (scenecollection.py lines
79-81): each asset is added under `assets/<remainder>`; `zip.write` on a
path that names no filesystem entry raises `FileNotFoundError`, modelled as
an error naming the offending asset. -/
def writeAssets (fs : FS) : List String → Except String (List String)
  | [] => .ok []
  | a :: rest =>
    if isfile fs a || isdir fs a then
      match writeAssets fs rest with
      | .ok ns => .ok ((assetPathInArchive ++ "/" ++ partitionTail a) :: ns)
      | .error e => .error e
    else .error a

/-- `export_scenes` (lines 68-81) on the object state `(scenes, assets)`:
rewrite the document with the filesystem formatter, then produce the archive
member list, `scene-collection.json` first; an exception while writing an
asset aborts the export. -/
def exportScenes (fs : FS) (scenes : JVal) (assets : List String) :
    Except String (JVal × List String) :=
  let scenes' := updateAssets scenes assetPathInArchive (formatFileName fs)
  match writeAssets fs assets with
  | .ok ns => .ok (scenes', "scene-collection.json" :: ns)
  | .error e => .error e

/-- The extraction loop of `import_scenes` (lines 106-111): every archive
member whose name starts with `asset_path_in_archive` is written to
`os.path.join(asset_dir, member[len(prefix)+1:])`; the computed asset list
is not consulted. -/
def importExtractTargets (names : List String) (assetDir : String) : List (String × String) :=
  (names.filter (fun p => sStartsWith p assetPathInArchive)).map
    (fun a => (a, assetDir ++ "/" ++ sDrop a (sLen assetPathInArchive + 1)))

/-- The elements of `scenes["sources"]`, empty for any other shape. -/
def sourcesList (scenes : JVal) : List JVal :=
  match jGet scenes "sources" with
  | some (.arr l) => l.toList
  | _ => []

/-! ### Concrete fixtures used to test the model -/

/-- The value of `settings[k]` of the first source, for stating concrete
field rewrites. -/
def firstSourceSettingStr (doc : JVal) (k : String) : Option String :=
  match sourcesList doc with
  | s :: _ =>
    (match jGet s "settings" with
     | some st =>
       (match jGet st k with
        | some (.str x) => some x
        | _ => none)
     | none => none)
  | [] => none

/-- The spec's visitor example document
`\x7b"a": [\x7b"b": "foo", "c": "bar"\x7d, \x7b"b": "fuu", "c": "baz"\x7d]\x7d`. -/
def exDoc : JVal :=
  .obj (.ocons "a" (.arr (.acons (.obj (.ocons "b" (.str "foo") (.ocons "c" (.str "bar") .onil)))
    (.acons (.obj (.ocons "b" (.str "fuu") (.ocons "c" (.str "baz") .onil))) .anil))) .onil)

/-- The spec's archive member list for the expansion example. -/
def names4 : List String :=
  ["assets/image0.jpg", "assets/dir/image1.jpg", "assets/dir/image2.jpg", "assets/image0.jpg1"]

/-- A small filesystem: a directory with a plain file, a hidden file and a
subdirectory holding another file. -/
def fsEx : FS :=
  ⟨["/a/b/f1.jpg", "/a/b/sub/g.jpg", "/a/b/.h"], ["/a", "/a/b", "/a/b/sub"]⟩

/-- A one-source document whose `image_source` references an absolute path
outside the archive prefix. -/
def docC1 : JVal :=
  .obj (.ocons "sources" (.arr (.acons (.obj (.ocons "versioned_id" (.str "image_source")
    (.ocons "settings" (.obj (.ocons "file" (.str "/gone/img.png") .onil)) .onil))) .anil))
    (.ocons "transitions" (.arr .anil) .onil))

/-- A one-source document carrying a macOS-specific capture identifier. -/
def docW : JVal :=
  .obj (.ocons "sources" (.arr (.acons (.obj (.ocons "id" (.str "av_capture_input")
    (.ocons "versioned_id" (.str "av_capture_input") .onil))) .anil)) .onil)

/-! ### Lemmas about occurrence counting -/

theorem countOcc_cons (pat : List Char) (c : Char) (cs : List Char) :
    countOcc pat (c :: cs) = (if pat.isPrefixOf (c :: cs) then 1 else 0) + countOcc pat cs := rfl

theorem countOcc_tail_le (pat : List Char) (c : Char) (cs : List Char) :
    countOcc pat cs ≤ countOcc pat (c :: cs) := by
  rw [countOcc_cons]; omega

theorem countOcc_zero_cons {pat : List Char} {c : Char} {cs : List Char}
    (h : countOcc pat (c :: cs) = 0) :
    pat.isPrefixOf (c :: cs) = false ∧ countOcc pat cs = 0 := by
  rw [countOcc_cons] at h
  constructor
  · by_contra hb
    simp only [Bool.not_eq_false] at hb
    simp [hb] at h
  · omega

theorem countOcc_pos_of_pref {pat s : List Char} (hne : pat ≠ []) (h : pat <+: s) :
    0 < countOcc pat s := by
  cases s with
  | nil =>
    cases pat with
    | nil => exact absurd rfl hne
    | cons a as => exact absurd (List.prefix_nil.mp h) (by simp)
  | cons c cs =>
    rw [countOcc_cons]
    have : pat.isPrefixOf (c :: cs) = true := List.isPrefixOf_iff_prefix.mpr h
    simp [this]

theorem countOcc_le_append_r (pat t r : List Char) :
    countOcc pat t ≤ countOcc pat (t ++ r) := by
  induction t with
  | nil => simp [countOcc]
  | cons c cs ih =>
    have hcons : (c :: cs) ++ r = c :: (cs ++ r) := rfl
    rw [hcons, countOcc_cons, countOcc_cons]
    have hif : (if pat.isPrefixOf (c :: cs) then 1 else 0) ≤
        (if pat.isPrefixOf (c :: (cs ++ r)) then 1 else 0) := by
      by_cases hp : pat.isPrefixOf (c :: cs)
      · have : pat <+: (c :: cs) := List.isPrefixOf_iff_prefix.mp hp
        have : pat <+: ((c :: cs) ++ r) := this.trans (List.prefix_append _ _)
        have : pat.isPrefixOf (c :: (cs ++ r)) = true := by
          rw [← hcons]; exact List.isPrefixOf_iff_prefix.mpr this
        simp [hp, this]
      · simp [hp]
    omega

theorem countOcc_le_append_l (pat t r : List Char) :
    countOcc pat t ≤ countOcc pat (r ++ t) := by
  induction r with
  | nil => simp
  | cons c cs ih =>
    have : (c :: cs) ++ t = c :: (cs ++ t) := rfl
    rw [this]
    exact ih.trans (countOcc_tail_le pat c (cs ++ t))

theorem countOcc_zero_mono {pat t s : List Char} (hsub : t <:+: s)
    (h : countOcc pat s = 0) : countOcc pat t = 0 := by
  obtain ⟨u, w, rfl⟩ := hsub
  have h1 : countOcc pat (t ++ w) ≤ countOcc pat (u ++ (t ++ w)) := countOcc_le_append_l _ _ _
  have h2 : countOcc pat t ≤ countOcc pat (t ++ w) := countOcc_le_append_r _ _ _
  rw [List.append_assoc] at h
  omega

theorem countOcc_pos_of_infix {pat s : List Char} (hne : pat ≠ []) (h : pat <:+: s) :
    0 < countOcc pat s := by
  by_contra hc
  have h0 : countOcc pat s = 0 := by omega
  have := countOcc_zero_mono (List.infix_refl pat) (countOcc_zero_mono h h0)
  have := countOcc_pos_of_pref hne (List.prefix_refl pat)
  omega

theorem countOcc_zero_of_not_mem {pat s : List Char} {ch : Char}
    (hch : ch ∈ pat) (h : ch ∉ s) : countOcc pat s = 0 := by
  induction s with
  | nil => rfl
  | cons c cs ih =>
    rw [countOcc_cons]
    have hp : pat.isPrefixOf (c :: cs) = false := by
      by_contra hb
      simp only [Bool.not_eq_false] at hb
      have := (List.isPrefixOf_iff_prefix.mp hb).subset hch
      exact h this
    have h2 : ch ∉ cs := fun hm => h (List.mem_cons_of_mem c hm)
    simp [hp, ih h2]

theorem countOcc_zero_no_slash {s : List Char} (h : '/' ∉ s) : countOcc mrk s = 0 :=
  countOcc_zero_of_not_mem (by simp [mrk]) h

/-- A marker-free list that does not end in `"/."` cannot start a marker
occurrence that straddles into an appended `"/./"`. -/
theorem mrk_not_pref (c : Char) (a' b : List Char)
    (ha : countOcc mrk (c :: a') = 0) (hae : ¬ ['/', '.'] <:+ (c :: a')) :
    mrk.isPrefixOf (c :: (a' ++ '/' :: '.' :: '/' :: b)) = false := by
  by_contra hb0
  simp only [Bool.not_eq_false] at hb0
  have h := List.isPrefixOf_iff_prefix.mp hb0
  rw [show mrk = '/' :: '.' :: '/' :: [] from rfl] at h
  rw [List.cons_prefix_cons] at h
  obtain ⟨hc, h⟩ := h
  cases a' with
  | nil =>
    rw [List.nil_append, List.cons_prefix_cons] at h
    exact absurd h.1 (by decide)
  | cons d a'' =>
    rw [show (d :: a'') ++ '/' :: '.' :: '/' :: b = d :: (a'' ++ '/' :: '.' :: '/' :: b) from rfl,
      List.cons_prefix_cons] at h
    obtain ⟨hd, h⟩ := h
    cases a'' with
    | nil =>
      subst hc; subst hd
      exact hae (List.suffix_refl _)
    | cons e a3 =>
      rw [show (e :: a3) ++ '/' :: '.' :: '/' :: b = e :: (a3 ++ '/' :: '.' :: '/' :: b) from rfl,
        List.cons_prefix_cons] at h
      obtain ⟨he, _⟩ := h
      subst hc; subst hd; subst he
      have hpre : mrk <+: ('/' :: '.' :: '/' :: a3) := ⟨a3, rfl⟩
      have := countOcc_pos_of_pref (by decide) hpre
      omega

/-- Surrounding `"/./"` with a marker-free head not ending in `"/."` and a
marker-free tail not starting with `"./"` yields exactly one occurrence. -/
theorem countOcc_sandwich : ∀ (a b : List Char), countOcc mrk a = 0 → countOcc mrk b = 0 →
    ¬ ['/', '.'] <:+ a → ¬ ['.', '/'] <+: b →
    countOcc mrk (a ++ '/' :: '.' :: '/' :: b) = 1 := by
  intro a
  induction a with
  | nil =>
    intro b ha hb hae hbs
    rw [List.nil_append, countOcc_cons, countOcc_cons, countOcc_cons]
    have h1 : mrk.isPrefixOf ('/' :: '.' :: '/' :: b) = true :=
      List.isPrefixOf_iff_prefix.mpr ⟨b, rfl⟩
    have h2 : mrk.isPrefixOf ('.' :: '/' :: b) = false := by
      by_contra hx
      simp only [Bool.not_eq_false] at hx
      have h := List.isPrefixOf_iff_prefix.mp hx
      rw [show mrk = '/' :: '.' :: '/' :: [] from rfl, List.cons_prefix_cons] at h
      exact absurd h.1 (by decide)
    have h3 : mrk.isPrefixOf ('/' :: b) = false := by
      by_contra hx
      simp only [Bool.not_eq_false] at hx
      have h := List.isPrefixOf_iff_prefix.mp hx
      rw [show mrk = '/' :: '.' :: '/' :: [] from rfl, List.cons_prefix_cons] at h
      exact hbs h.2
    simp [h1, h2, h3, hb]
  | cons c a' ih =>
    intro b ha hb hae hbs
    rw [show (c :: a') ++ '/' :: '.' :: '/' :: b = c :: (a' ++ '/' :: '.' :: '/' :: b) from rfl,
      countOcc_cons]
    obtain ⟨_, ha'⟩ := countOcc_zero_cons ha
    have hae' : ¬ ['/', '.'] <:+ a' := fun hsuf => hae (hsuf.trans (List.suffix_cons c a'))
    rw [mrk_not_pref c a' b ha hae]
    simp only [Bool.false_eq_true, if_false, Nat.zero_add]
    exact ih b ha' hb hae' hbs

/-- Splitting at the first `"/./"` of a sandwiched token recovers the tail. -/
theorem partAfter_sandwich : ∀ (a b : List Char), countOcc mrk a = 0 →
    ¬ ['/', '.'] <:+ a → partAfter mrk (a ++ '/' :: '.' :: '/' :: b) = b := by
  intro a
  induction a with
  | nil =>
    intro b _ _
    rw [List.nil_append]
    have h1 : mrk.isPrefixOf ('/' :: '.' :: '/' :: b) = true :=
      List.isPrefixOf_iff_prefix.mpr ⟨b, rfl⟩
    simp [partAfter, h1, mrk]
  | cons c a' ih =>
    intro b ha hae
    rw [show (c :: a') ++ '/' :: '.' :: '/' :: b = c :: (a' ++ '/' :: '.' :: '/' :: b) from rfl]
    obtain ⟨_, ha'⟩ := countOcc_zero_cons ha
    have hae' : ¬ ['/', '.'] <:+ a' := fun hsuf => hae (hsuf.trans (List.suffix_cons c a'))
    rw [partAfter, mrk_not_pref c a' b ha hae]
    simp only [Bool.false_eq_true, if_false]
    exact ih b ha' hae'

/-- A marker-free list has nothing after its (absent) first marker. -/
theorem partAfter_zero : ∀ (l : List Char), countOcc mrk l = 0 → partAfter mrk l = [] := by
  intro l
  induction l with
  | nil => intro _; rfl
  | cons c cs ih =>
    intro h
    obtain ⟨hp, hcs⟩ := countOcc_zero_cons h
    rw [partAfter, hp]
    simp only [Bool.false_eq_true, if_false]
    exact ih hcs

/-! ### Lemmas about dirname / basename -/

theorem toList_asString (l : List Char) : l.asString.toList = l := rfl

theorem asString_toList (s : String) : s.toList.asString = s := rfl

theorem sToList_append (a b : String) : (a ++ b).toList = a.toList ++ b.toList := rfl

theorem breakLast_none (c : Char) : ∀ (cs : List Char), breakLast c cs = none → c ∉ cs := by
  intro cs
  induction cs with
  | nil => intro _; simp
  | cons x xs ih =>
    intro h
    rw [breakLast] at h
    cases hx : breakLast c xs with
    | some pq => rw [hx] at h; simp at h
    | none =>
      rw [hx] at h
      by_cases hxc : x = c
      · simp [hxc] at h
      · simp only [List.mem_cons, not_or]
        exact ⟨fun he => hxc he.symm, ih hx⟩

theorem breakLast_some (c : Char) : ∀ (cs p q : List Char),
    breakLast c cs = some (p, q) → cs = p ++ c :: q ∧ c ∉ q := by
  intro cs
  induction cs with
  | nil => intro p q h; simp [breakLast] at h
  | cons x xs ih =>
    intro p q h
    rw [breakLast] at h
    cases hx : breakLast c xs with
    | some pq =>
      obtain ⟨p', q'⟩ := pq
      rw [hx] at h
      simp only [Option.some.injEq, Prod.mk.injEq] at h
      obtain ⟨hp, hq⟩ := h
      obtain ⟨hxs, hcq⟩ := ih p' q' hx
      subst hp; subst hq
      exact ⟨by rw [hxs]; rfl, hcq⟩
    | none =>
      rw [hx] at h
      by_cases hxc : x = c
      · simp only [hxc, if_true, Option.some.injEq, Prod.mk.injEq] at h
        obtain ⟨hp, hq⟩ := h
        subst hp; subst hq
        exact ⟨by rw [hxc]; simp, breakLast_none c _ hx⟩
      · simp [hxc] at h

theorem rstripChar_spec (c : Char) (l : List Char) :
    ∃ k, l = rstripChar c l ++ List.replicate k c := by
  have htw : (l.reverse.takeWhile (fun x => x = c)).reverse =
      List.replicate (l.reverse.takeWhile (fun x => x = c)).length c := by
    rw [List.eq_replicate_iff]
    constructor
    · simp
    · intro b hb
      rw [List.mem_reverse] at hb
      have := List.mem_takeWhile_imp hb
      simpa using this
  refine ⟨(l.reverse.takeWhile (fun x => x = c)).length, ?_⟩
  conv_lhs => rw [← List.reverse_reverse l,
    ← @List.takeWhile_append_dropWhile _ (fun x => decide (x = c)) l.reverse]
  rw [List.reverse_append, htw]
  rfl

theorem rstripChar_pref (c : Char) (l : List Char) : rstripChar c l <+: l := by
  obtain ⟨k, h⟩ := rstripChar_spec c l
  exact ⟨List.replicate k c, h.symm⟩

theorem pyBasename_eq_none {s : String} (hb : breakLast '/' s.toList = none) :
    pyBasename s = s := by
  unfold pyBasename
  rw [show breakLast '/' s.toList = none from hb]

theorem pyBasename_eq_some {s : String} {p q : List Char}
    (hb : breakLast '/' s.toList = some (p, q)) : pyBasename s = q.asString := by
  unfold pyBasename
  rw [show breakLast '/' s.toList = some (p, q) from hb]

theorem pyDirname_eq_none {s : String} (hb : breakLast '/' s.toList = none) :
    pyDirname s = "" := by
  unfold pyDirname
  rw [show breakLast '/' s.toList = none from hb]

theorem pyDirname_eq_some {s : String} {p q : List Char}
    (hb : breakLast '/' s.toList = some (p, q)) :
    pyDirname s = (if (p ++ ['/']).all (fun x => x = '/') then (p ++ ['/']).asString
      else (rstripChar '/' (p ++ ['/'])).asString) := by
  unfold pyDirname
  rw [show breakLast '/' s.toList = some (p, q) from hb]

theorem pyBasename_no_slash (s : String) : '/' ∉ (pyBasename s).toList := by
  cases hb : breakLast '/' s.toList with
  | none => rw [pyBasename_eq_none hb]; exact breakLast_none '/' s.toList hb
  | some pq =>
    obtain ⟨p, q⟩ := pq
    rw [pyBasename_eq_some hb, toList_asString]
    exact (breakLast_some '/' s.toList p q hb).2

theorem pyDirname_toList_pref (s : String) : (pyDirname s).toList <+: s.toList := by
  cases hb : breakLast '/' s.toList with
  | none => rw [pyDirname_eq_none hb]; exact List.nil_prefix
  | some pq =>
    obtain ⟨p, q⟩ := pq
    obtain ⟨hs, _⟩ := breakLast_some '/' s.toList p q hb
    have hhead : (p ++ ['/']) <+: s.toList := ⟨q, by rw [hs]; simp⟩
    rw [pyDirname_eq_some hb]
    split
    · rw [toList_asString]; exact hhead
    · rw [toList_asString]; exact (rstripChar_pref '/' (p ++ ['/'])).trans hhead

theorem pyDirname_marker_free (s : String) (h : countMarker s = 0) :
    countOcc mrk (pyDirname s).toList = 0 :=
  countOcc_zero_mono (pyDirname_toList_pref s).isInfix h

theorem pyDirname_not_dotslash (s : String) (h : countMarker s = 0) :
    ¬ ['/', '.'] <:+ (pyDirname s).toList := by
  cases hb : breakLast '/' s.toList with
  | none =>
    rw [pyDirname_eq_none hb, show ("" : String).toList = [] from rfl, List.suffix_nil]
    simp
  | some pq =>
    obtain ⟨p, q⟩ := pq
    obtain ⟨hs, _⟩ := breakLast_some '/' s.toList p q hb
    have hheadpre : (p ++ ['/']) <+: s.toList := ⟨q, by rw [hs]; simp⟩
    have hhead0 : countOcc mrk (p ++ ['/']) = 0 := countOcc_zero_mono hheadpre.isInfix h
    rw [pyDirname_eq_some hb]
    split
    · rename_i hall
      rw [toList_asString]
      intro hsuf
      have hdot : '.' ∈ p ++ ['/'] := hsuf.subset (by simp)
      have := List.all_eq_true.mp hall _ hdot
      simp at this
    · rw [toList_asString]
      intro hsuf
      obtain ⟨u, hu⟩ := hsuf
      obtain ⟨k, hk⟩ := rstripChar_spec '/' (p ++ ['/'])
      cases k with
      | zero =>
        rw [List.replicate_zero, List.append_nil] at hk
        have h1 : (p ++ ['/']).getLast? = some '/' := List.getLast?_concat _
        have h2 : (p ++ ['/']).getLast? = some '.' := by
          rw [hk, ← hu, show u ++ ['/', '.'] = (u ++ ['/']) ++ ['.'] by simp]
          exact List.getLast?_concat _
        rw [h1] at h2
        exact absurd (Option.some.inj h2) (by decide)
      | succ k' =>
        have hsh : p ++ ['/'] = u ++ ('/' :: '.' :: '/' :: List.replicate k' '/') := by
          rw [hk, ← hu, List.replicate_succ]
          simp
        have hinf : mrk <:+: (p ++ ['/']) := by
          refine ⟨u, List.replicate k' '/', ?_⟩
          rw [hsh]
          simp [mrk]
        have := countOcc_pos_of_infix (by decide) hinf
        omega

/-- The token built by the filesystem `format_file_name` from a marker-free
path has exactly one marker, and splitting at that marker recovers the base
name. -/
theorem fileToken_spec (s : String) (h : countMarker s = 0) :
    countMarker (pyDirname s ++ "/./" ++ pyBasename s) = 1 ∧
    partitionTail (pyDirname s ++ "/./" ++ pyBasename s) = pyBasename s := by
  have ha : countOcc mrk (pyDirname s).toList = 0 := pyDirname_marker_free s h
  have hae : ¬ ['/', '.'] <:+ (pyDirname s).toList := pyDirname_not_dotslash s h
  have hnos : '/' ∉ (pyBasename s).toList := pyBasename_no_slash s
  have hb : countOcc mrk (pyBasename s).toList = 0 := countOcc_zero_no_slash hnos
  have hbs : ¬ ['.', '/'] <+: (pyBasename s).toList := by
    intro hpre
    exact hnos (hpre.subset (by simp))
  have htl : (pyDirname s ++ "/./" ++ pyBasename s).toList =
      (pyDirname s).toList ++ '/' :: '.' :: '/' :: (pyBasename s).toList := by
    rw [sToList_append, sToList_append]
    simp
  constructor
  · rw [countMarker, htl]
    exact countOcc_sandwich _ _ ha hb hae hbs
  · rw [partitionTail, htl, partAfter_sandwich _ _ ha hae, asString_toList]

/-- Generic one-marker token: a marker-free base not ending in `"/."`,
joined by `"/./"` to a marker-free remainder not starting with `"./"`. -/
theorem token_marker_one (A B : String) (ha : countOcc mrk A.toList = 0)
    (hae : ¬ ['/', '.'] <:+ A.toList) (hb : countOcc mrk B.toList = 0)
    (hbs : ¬ ['.', '/'] <+: B.toList) :
    countMarker (A ++ "/./" ++ B) = 1 ∧ partitionTail (A ++ "/./" ++ B) = B := by
  have htl : (A ++ "/./" ++ B).toList = A.toList ++ '/' :: '.' :: '/' :: B.toList := by
    rw [sToList_append, sToList_append]
    simp
  constructor
  · rw [countMarker, htl]
    exact countOcc_sandwich _ _ ha hb hae hbs
  · rw [partitionTail, htl, partAfter_sandwich _ _ ha hae, asString_toList]

/-- Structure of a string starting with `pfx ++ "/"`. -/
theorem startsWith_slash_split {path pfx : String}
    (hsw : sStartsWith path (pfx ++ "/") = true) :
    path.toList = pfx.toList ++ '/' :: (path.toList.drop (sLen pfx + 1)) ∧
    (sDrop path (sLen pfx + 1)).toList = path.toList.drop (sLen pfx + 1) := by
  have hpre : (pfx.toList ++ ['/']) <+: path.toList := by
    have := List.isPrefixOf_iff_prefix.mp hsw
    rwa [sToList_append, show ("/" : String).toList = ['/'] from rfl] at this
  obtain ⟨r, hr⟩ := hpre
  have hdrop : path.toList.drop (sLen pfx + 1) = r := by
    rw [← hr, show sLen pfx + 1 = (pfx.toList ++ ['/']).length by simp [sLen]]
    exact List.drop_left _ _
  constructor
  · rw [hdrop, ← hr]; simp
  · rw [sDrop, toList_asString]

/-- The remainder after `pfx ++ "/"` of a marker-free string is marker-free
and does not start with `"./"`. -/
theorem tail_after_slash_ok {path pfx : String}
    (hsw : sStartsWith path (pfx ++ "/") = true) (hpath : countMarker path = 0) :
    countOcc mrk (sDrop path (sLen pfx + 1)).toList = 0 ∧
    ¬ ['.', '/'] <+: (sDrop path (sLen pfx + 1)).toList := by
  obtain ⟨hsplit, hdl⟩ := startsWith_slash_split hsw
  rw [hdl]
  set r := path.toList.drop (sLen pfx + 1) with hrdef
  constructor
  · exact countOcc_zero_mono (List.drop_suffix _ _).isInfix hpath
  · intro hds
    obtain ⟨t, ht⟩ := hds
    have : mrk <:+: path.toList := by
      refine ⟨pfx.toList, t, ?_⟩
      rw [hsplit, ← ht]
      simp [mrk]
    have := countOcc_pos_of_infix (by decide) this
    rw [countMarker] at hpath
    omega

/-- The archive token built by `ZipPathFormatter.format_file_name` from a
marker-free path under a well-formed marker-free prefix. -/
theorem zipToken_spec (pfx path : String)
    (hp0 : countMarker pfx = 0) (hpe : ¬ ['/', '.'] <:+ pfx.toList)
    (hsw : sStartsWith path (pfx ++ "/") = true) (hpath : countMarker path = 0) :
    zipFormatFileName pfx path = pfx ++ "/./" ++ sDrop path (sLen pfx + 1) ∧
    countMarker (pfx ++ "/./" ++ sDrop path (sLen pfx + 1)) = 1 ∧
    partitionTail (pfx ++ "/./" ++ sDrop path (sLen pfx + 1)) = sDrop path (sLen pfx + 1) := by
  obtain ⟨hsplit, _⟩ := startsWith_slash_split hsw
  obtain ⟨hr0, hrs⟩ := tail_after_slash_ok hsw hpath
  have hswp : sStartsWith path pfx = true := by
    rw [sStartsWith]
    apply List.isPrefixOf_iff_prefix.mpr
    exact ⟨'/' :: path.toList.drop (sLen pfx + 1), hsplit.symm⟩
  refine ⟨?_, (token_marker_one _ _ hp0 hpe hr0 hrs).1, (token_marker_one _ _ hp0 hpe hr0 hrs).2⟩
  rw [zipFormatFileName, hswp]
  simp

/-- `relative_to` output from a marker-free absolute entry: marker-free and
not starting with `"./"`. -/
theorem relTo_ok (e dnn : String) (he : countMarker e = 0)
    (habs : sStartsWith e "/" = true) :
    countOcc mrk (relTo e dnn).toList = 0 ∧ ¬ ['.', '/'] <+: (relTo e dnn).toList := by
  have heabs : ∃ t, e.toList = '/' :: t := by
    have := List.isPrefixOf_iff_prefix.mp habs
    obtain ⟨t, ht⟩ := this
    exact ⟨t, by rw [← ht]; rfl⟩
  have hnoe : ¬ ['.', '/'] <+: e.toList := by
    obtain ⟨t, ht⟩ := heabs
    rw [ht]
    intro hp
    rw [List.cons_prefix_cons] at hp
    exact absurd hp.1 (by decide)
  by_cases h1 : dnn = ""
  · rw [relTo, if_pos h1]
    exact ⟨he, hnoe⟩
  · by_cases h2 : dnn = "/"
    · rw [relTo, if_neg h1, if_pos h2, if_pos habs]
      obtain ⟨t, ht⟩ := heabs
      have hdl : (sDrop e 1).toList = t := by rw [sDrop, toList_asString, ht]; rfl
      rw [hdl]
      constructor
      · have : t <:+ e.toList := by rw [ht]; exact ⟨['/'], rfl⟩
        exact countOcc_zero_mono this.isInfix he
      · intro hds
        obtain ⟨u, hu⟩ := hds
        have : mrk <+: e.toList := by
          rw [ht, ← hu]
          exact ⟨u, rfl⟩
        have := countOcc_pos_of_infix (by decide) this.isInfix
        rw [countMarker] at he
        omega
    · by_cases h3 : sStartsWith e (dnn ++ "/") = true
      · rw [relTo, if_neg h1, if_neg h2, if_pos h3]
        exact tail_after_slash_ok h3 he
      · rw [relTo, if_neg h1, if_neg h2, if_neg h3]
        exact ⟨he, hnoe⟩

/-- Every token produced by the filesystem `format_expanding_dirs` from a
marker-free path over a filesystem of marker-free absolute entries has
exactly one marker. -/
theorem expandToken_marker (fs : FS) (path t : String) (hpath : countMarker path = 0)
    (hfs : ∀ e, e ∈ fs.files ++ fs.dirs → countMarker e = 0 ∧ sStartsWith e "/" = true)
    (ht : t ∈ formatExpandingDirs fs path) : countMarker t = 1 := by
  rw [formatExpandingDirs] at ht
  by_cases hf : isfile fs path = true
  · rw [if_pos hf, List.mem_singleton] at ht
    subst ht
    exact (fileToken_spec path hpath).1
  · rw [if_neg hf] at ht
    by_cases hd : isdir fs path = true
    · rw [if_pos hd, List.mem_filterMap] at ht
      obtain ⟨e, he, hsome⟩ := ht
      rw [childEntries, List.mem_filter] at he
      obtain ⟨he0, habs⟩ := hfs e he.1
      split at hsome
      · rw [Option.some.injEq] at hsome
        subst hsome
        obtain ⟨hr0, hrs⟩ := relTo_ok e (normPath (pyDirname path)) he0 habs
        exact (token_marker_one _ _ (pyDirname_marker_free path hpath)
          (pyDirname_not_dotslash path hpath) hr0 hrs).1
      · exact absurd hsome (by simp)
    · rw [if_neg hd] at ht
      simp at ht

/-- The archive `format_expanding_dirs` returns member names unchanged:
no marker is introduced. -/
theorem zipExpand_no_marker (names : List String) (path t : String)
    (hn : ∀ e ∈ names, countMarker e = 0) (ht : t ∈ zipFormatExpandingDirs names path) :
    countMarker t = 0 := by
  rw [zipFormatExpandingDirs] at ht
  split at ht
  · rename_i hmem
    rw [List.mem_singleton] at ht
    subst ht
    exact hn t hmem
  · exact hn t (List.mem_filter.mp ht).1

/-! ### Lemmas about the document model and the visitor -/

theorem getKey_applyKeyFirst_self (f : JVal → JVal) :
    ∀ (fs : JObj) (k : String), getKey (applyKeyFirst f fs k) k = (getKey fs k).map f
  | .onil, _ => rfl
  | .ocons k' v fs', k => by
    by_cases hk : k' = k
    · rw [applyKeyFirst, if_pos hk, getKey, if_pos hk, getKey, if_pos hk]
      rfl
    · rw [applyKeyFirst, if_neg hk, getKey, if_neg hk, getKey, if_neg hk]
      exact getKey_applyKeyFirst_self f fs' k

theorem getKey_applyKeyFirst_ne (f : JVal → JVal) :
    ∀ (fs : JObj) (k key : String), k ≠ key →
      getKey (applyKeyFirst f fs k) key = getKey fs key
  | .onil, _, _, _ => rfl
  | .ocons k' v fs', k, key, hne => by
    by_cases hk : k' = k
    · rw [applyKeyFirst, if_pos hk, getKey, getKey]
      have : ¬ k' = key := by rw [hk]; exact hne
      rw [if_neg this, if_neg this]
    · rw [applyKeyFirst, if_neg hk, getKey, getKey]
      by_cases hk2 : k' = key
      · rw [if_pos hk2, if_pos hk2]
      · rw [if_neg hk2, if_neg hk2]
        exact getKey_applyKeyFirst_ne f fs' k key hne

theorem applyKeyFirst_id : ∀ (fs : JObj) (k : String),
    applyKeyFirst (fun v => v) fs k = fs
  | .onil, _ => rfl
  | .ocons k' v fs', k => by
    rw [applyKeyFirst]
    split
    · rename_i hk; rw [hk]
    · rw [applyKeyFirst_id fs' k]

theorem applyKeyFirst_self_val : ∀ (fs : JObj) (k : String) (v : JVal),
    getKey fs k = some v → applyKeyFirst (fun _ => v) fs k = fs
  | .onil, _, _, _ => rfl
  | .ocons k' w fs', k, v, h => by
    rw [getKey] at h
    rw [applyKeyFirst]
    by_cases hk : k' = k
    · rw [if_pos hk] at h
      rw [if_pos hk, Option.some.inj h]
    · rw [if_neg hk] at h
      rw [if_neg hk, applyKeyFirst_self_val fs' k v h]

theorem toList_arrMap (g : JVal → JVal) : ∀ (l : JArr),
    (arrMap g l).toList = l.toList.map g
  | .anil => rfl
  | .acons x xs => by
    rw [arrMap, JArr.toList, JArr.toList, List.map_cons, toList_arrMap g xs]

theorem arrMap_id : ∀ (l : JArr), arrMap (fun v => v) l = l
  | .anil => rfl
  | .acons x xs => by rw [arrMap, arrMap_id xs]

mutual

theorem dictPathMap_id : ∀ (o : JVal) (path : List String), dictPathMap (fun v => v) o path = o
  | .arr l, path => by rw [dictPathMap, dictPathMapArr_id l path]
  | .obj fields, [] => rfl
  | .obj fields, [k] => by
    rw [dictPathMap]
    split
    · rw [applyKeyFirst_id]
    · rfl
  | .obj fields, k :: k2 :: rest => by
    rw [dictPathMap, dictPathMapObj_id fields k (k2 :: rest)]
  | .str _, _ => rfl
  | .num _, _ => rfl
  | .jbool _, _ => rfl
  | .jnull, _ => rfl

theorem dictPathMapArr_id : ∀ (l : JArr) (path : List String),
    dictPathMapArr (fun v => v) l path = l
  | .anil, _ => rfl
  | .acons x xs, path => by
    rw [dictPathMapArr, dictPathMap_id x path, dictPathMapArr_id xs path]

theorem dictPathMapObj_id : ∀ (fs : JObj) (k : String) (rest : List String),
    dictPathMapObj (fun v => v) fs k rest = fs
  | .onil, _, _ => rfl
  | .ocons k' v fs', k, rest => by
    rw [dictPathMapObj]
    split
    · rw [dictPathMap_id v rest]
    · rw [dictPathMapObj_id fs' k rest]

end

mutual

/-- Reading the mutate-pass result at its own visit positions yields exactly
the callback images of the original visit values. -/
theorem dictPathCalls_map (f : JVal → JVal) : ∀ (o : JVal) (path : List String),
    (dictPathCalls (dictPathMap f o path) path).map callVal
      = (dictPathCalls o path).map (fun pr => f (callVal pr))
  | .arr l, path => dictPathCallsArr_map f l path
  | .obj fields, [] => rfl
  | .obj fields, [k] => by
    rw [dictPathMap]
    by_cases hm : memKey fields k = true
    · rw [if_pos hm]
      have hm' : memKey (applyKeyFirst f fields k) k = true := by
        rw [memKey, getKey_applyKeyFirst_self]
        rw [memKey] at hm
        cases hg : getKey fields k with
        | none => rw [hg] at hm; simp at hm
        | some v => rfl
      rw [dictPathCalls, if_pos hm', dictPathCalls, if_pos hm,
        List.map_singleton, List.map_singleton, callVal, callVal]
      simp only
      rw [getKey_applyKeyFirst_self]
      rw [memKey] at hm
      cases hg : getKey fields k with
      | none => rw [hg] at hm; simp at hm
      | some v => rfl
    · rw [if_neg hm, dictPathCalls, if_neg hm]
      simp
  | .obj fields, k :: k2 :: rest => dictPathCallsObj_map f fields k (k2 :: rest)
  | .str _, _ => rfl
  | .num _, _ => rfl
  | .jbool _, _ => rfl
  | .jnull, _ => rfl

theorem dictPathCallsArr_map (f : JVal → JVal) : ∀ (l : JArr) (path : List String),
    (dictPathCallsArr (dictPathMapArr f l path) path).map callVal
      = (dictPathCallsArr l path).map (fun pr => f (callVal pr))
  | .anil, _ => rfl
  | .acons x xs, path => by
    rw [dictPathMapArr, dictPathCallsArr, dictPathCallsArr, List.map_append, List.map_append,
      dictPathCalls_map f x path, dictPathCallsArr_map f xs path]

theorem dictPathCallsObj_map (f : JVal → JVal) : ∀ (fs : JObj) (k : String) (rest : List String),
    (dictPathCallsObj (dictPathMapObj f fs k rest) k rest).map callVal
      = (dictPathCallsObj fs k rest).map (fun pr => f (callVal pr))
  | .onil, _, _ => rfl
  | .ocons k' v fs', k, rest => by
    by_cases hk : k' = k
    · rw [dictPathMapObj, if_pos hk, dictPathCallsObj, if_pos hk, dictPathCallsObj, if_pos hk]
      exact dictPathCalls_map f v rest
    · rw [dictPathMapObj, if_neg hk, dictPathCallsObj, if_neg hk, dictPathCallsObj, if_neg hk]
      exact dictPathCallsObj_map f fs' k rest

end

theorem getKey_dictPathMapObj_ne (f : JVal → JVal) :
    ∀ (fs : JObj) (k : String) (rest : List String) (key : String), k ≠ key →
      getKey (dictPathMapObj f fs k rest) key = getKey fs key
  | .onil, _, _, _, _ => rfl
  | .ocons k' v fs', k, rest, key, hne => by
    by_cases hk : k' = k
    · rw [dictPathMapObj, if_pos hk, getKey, getKey]
      have : ¬ k' = key := by rw [hk]; exact hne
      rw [if_neg this, if_neg this]
    · rw [dictPathMapObj, if_neg hk, getKey, getKey]
      by_cases hk2 : k' = key
      · rw [if_pos hk2, if_pos hk2]
      · rw [if_neg hk2, if_neg hk2]
        exact getKey_dictPathMapObj_ne f fs' k rest key hne

/-- The mutating visitor leaves every top-level key other than the pattern
head untouched. -/
theorem jGet_dictPathMap_ne (f : JVal → JVal) (o : JVal) (k : String) (rest : List String)
    (key : String) (hne : k ≠ key) :
    jGet (dictPathMap f o (k :: rest)) key = jGet o key := by
  cases o with
  | obj fields =>
    cases rest with
    | nil =>
      rw [dictPathMap]
      split
      · rw [jGet, jGet]
        exact getKey_applyKeyFirst_ne f fields k key hne
      · rfl
    | cons k2 r =>
      rw [dictPathMap, jGet, jGet]
      exact getKey_dictPathMapObj_ne f fields k (k2 :: r) key hne
  | arr l => rfl
  | str s => rfl
  | num n => rfl
  | jbool b => rfl
  | jnull => rfl

theorem jGet_mapTop_ne (o : JVal) (k : String) (g : JVal → JVal) (key : String)
    (h : k ≠ key) : jGet (mapTop o k g) key = jGet o key := by
  cases o with
  | obj fs =>
    rw [mapTop]
    cases hg : getKey fs k with
    | none => rfl
    | some v =>
      cases v with
      | arr l =>
        rw [jGet, jGet]
        exact getKey_applyKeyFirst_ne _ fs k key h
      | str s => rfl
      | num n => rfl
      | jbool b => rfl
      | jnull => rfl
      | obj fs2 => rfl
  | arr l => rfl
  | str s => rfl
  | num n => rfl
  | jbool b => rfl
  | jnull => rfl

theorem jGet_mapTop_self (o : JVal) (k : String) (g : JVal → JVal) :
    jGet (mapTop o k g) k = match jGet o k with
      | some (.arr l) => some (.arr (arrMap g l))
      | other => other := by
  cases o with
  | obj fs =>
    rw [mapTop]
    cases hg : getKey fs k with
    | none => rw [jGet, hg]
    | some v =>
      cases v with
      | arr l =>
        rw [jGet, getKey_applyKeyFirst_self, hg]
        rw [show jGet (JVal.obj fs) k = some (JVal.arr l) from hg]
        simp
      | str s => rw [jGet, hg]
      | num n => rw [jGet, hg]
      | jbool b => rw [jGet, hg]
      | jnull => rw [jGet, hg]
      | obj fs2 => rw [jGet, hg]
  | arr l => rfl
  | str s => rfl
  | num n => rfl
  | jbool b => rfl
  | jnull => rfl

theorem if_true_bool {α : Sort _} {b : Bool} (h : b = true) (x y : α) :
    (if b = true then x else y) = x := by rw [h]; simp

theorem if_false_bool {α : Sort _} {b : Bool} (h : b = false) (x y : α) :
    (if b = true then x else y) = y := by rw [h]; simp

theorem keyStrEq_of_jGet {o o' : JVal} {k : String} (h : jGet o' k = jGet o k) (v : String) :
    keyStrEq o' k v = keyStrEq o k v := by rw [keyStrEq, keyStrEq, h]

/-- A source matches at most one registered variant. -/
theorem keyStrEq_unique {o : JVal} {k a b : String} (ha : keyStrEq o k a = true)
    (hab : a ≠ b) : keyStrEq o k b = false := by
  rw [keyStrEq] at ha ⊢
  revert ha
  cases jGet o k with
  | none => intro ha; exact Bool.noConfusion ha
  | some v =>
    cases v with
    | str s =>
      intro ha
      have ha' : s = a := beq_iff_eq.mp ha
      subst ha'
      exact beq_eq_false_iff_ne.mpr hab
    | arr l => intro ha; exact Bool.noConfusion ha
    | num n => intro ha; exact Bool.noConfusion ha
    | jbool bb => intro ha; exact Bool.noConfusion ha
    | jnull => intro ha; exact Bool.noConfusion ha
    | obj fs => intro ha; exact Bool.noConfusion ha

theorem jGet_mapS_ne (f : JVal → JVal) (y : JVal) (pat : String) (k : String)
    (t : List String) (hp : dotSplit pat = k :: t) (key : String) (hne : k ≠ key) :
    jGet (dictPathMapS f y pat) key = jGet y key := by
  simp only [dictPathMapS]
  rw [hp]
  exact jGet_dictPathMap_ne f y k t key hne

/-- The mutate-pass on a source never touches keys outside `settings`. -/
theorem jGet_updateSource_ne (f : JVal → JVal) (src : JVal) (key : String)
    (h : key ≠ "settings") : jGet (updateSource f src) key = jGet src key := by
  have hstep : ∀ (y : JVal) (b : Bool) (rest : List String),
      jGet (if b = true then dictPathMap f y ("settings" :: rest) else y) key = jGet y key := by
    intro y b rest
    cases b with
    | false => rfl
    | true =>
      rw [if_pos rfl]
      exact jGet_dictPathMap_ne f y "settings" rest key (fun hh => h hh.symm)
  simp only [updateSource, dictPathMapS]
  rw [show dotSplit "settings.local_file" = "settings" :: ["local_file"] from rfl,
    show dotSplit "settings.file" = "settings" :: ["file"] from rfl,
    show dotSplit "settings.files.value" = "settings" :: ["files", "value"] from rfl,
    show dotSplit "settings.playlist.value" = "settings" :: ["playlist", "value"] from rfl]
  rw [hstep, hstep, hstep, hstep]

theorem updateSource_eq_ffmpeg (f : JVal → JVal) (src : JVal)
    (h1 : keyStrEq src "versioned_id" "ffmpeg_source" = true) :
    updateSource f src = dictPathMapS f src "settings.local_file" := by
  have h2 : keyStrEq src "versioned_id" "image_source" = false :=
    keyStrEq_unique h1 (by decide)
  have h3 : keyStrEq src "versioned_id" "slideshow" = false :=
    keyStrEq_unique h1 (by decide)
  have h4 : keyStrEq src "versioned_id" "vlc_source" = false :=
    keyStrEq_unique h1 (by decide)
  have hpres : ∀ v, keyStrEq (dictPathMapS f src "settings.local_file") "versioned_id" v
      = keyStrEq src "versioned_id" v := fun v =>
    keyStrEq_of_jGet (jGet_mapS_ne f src "settings.local_file" "settings" ["local_file"] rfl "versioned_id" (by decide)) v
  simp only [updateSource]
  rw [if_true_bool h1, if_false_bool ((hpres _).trans h2), if_false_bool ((hpres _).trans h3),
    if_false_bool ((hpres _).trans h4)]

theorem updateSource_eq_image (f : JVal → JVal) (src : JVal)
    (h2 : keyStrEq src "versioned_id" "image_source" = true) :
    updateSource f src = dictPathMapS f src "settings.file" := by
  have h1 : keyStrEq src "versioned_id" "ffmpeg_source" = false :=
    keyStrEq_unique h2 (by decide)
  have h3 : keyStrEq src "versioned_id" "slideshow" = false :=
    keyStrEq_unique h2 (by decide)
  have h4 : keyStrEq src "versioned_id" "vlc_source" = false :=
    keyStrEq_unique h2 (by decide)
  have hpres : ∀ v, keyStrEq (dictPathMapS f src "settings.file") "versioned_id" v
      = keyStrEq src "versioned_id" v := fun v =>
    keyStrEq_of_jGet (jGet_mapS_ne f src "settings.file" "settings" ["file"] rfl "versioned_id" (by decide)) v
  simp only [updateSource]
  rw [if_false_bool h1, if_true_bool h2, if_false_bool ((hpres _).trans h3),
    if_false_bool ((hpres _).trans h4)]

theorem updateSource_eq_slideshow (f : JVal → JVal) (src : JVal)
    (h3 : keyStrEq src "versioned_id" "slideshow" = true) :
    updateSource f src = dictPathMapS f src "settings.files.value" := by
  have h1 : keyStrEq src "versioned_id" "ffmpeg_source" = false :=
    keyStrEq_unique h3 (by decide)
  have h2 : keyStrEq src "versioned_id" "image_source" = false :=
    keyStrEq_unique h3 (by decide)
  have h4 : keyStrEq src "versioned_id" "vlc_source" = false :=
    keyStrEq_unique h3 (by decide)
  have hpres : ∀ v, keyStrEq (dictPathMapS f src "settings.files.value") "versioned_id" v
      = keyStrEq src "versioned_id" v := fun v =>
    keyStrEq_of_jGet (jGet_mapS_ne f src "settings.files.value" "settings" ["files", "value"] rfl "versioned_id" (by decide)) v
  simp only [updateSource]
  rw [if_false_bool h1, if_false_bool h2, if_true_bool h3, if_false_bool ((hpres _).trans h4)]

theorem updateSource_eq_vlc (f : JVal → JVal) (src : JVal)
    (h4 : keyStrEq src "versioned_id" "vlc_source" = true) :
    updateSource f src = dictPathMapS f src "settings.playlist.value" := by
  have h1 : keyStrEq src "versioned_id" "ffmpeg_source" = false :=
    keyStrEq_unique h4 (by decide)
  have h2 : keyStrEq src "versioned_id" "image_source" = false :=
    keyStrEq_unique h4 (by decide)
  have h3 : keyStrEq src "versioned_id" "slideshow" = false :=
    keyStrEq_unique h4 (by decide)
  simp only [updateSource]
  rw [if_false_bool h1, if_false_bool h2, if_false_bool h3, if_true_bool h4]

theorem updateSource_eq_none (f : JVal → JVal) (src : JVal)
    (h1 : keyStrEq src "versioned_id" "ffmpeg_source" = false)
    (h2 : keyStrEq src "versioned_id" "image_source" = false)
    (h3 : keyStrEq src "versioned_id" "slideshow" = false)
    (h4 : keyStrEq src "versioned_id" "vlc_source" = false) :
    updateSource f src = src := by
  simp only [updateSource]
  rw [if_false_bool h1, if_false_bool h2, if_false_bool h3, if_false_bool h4]

/-- The mutate-pass on one source rewrites exactly the fields the read-pass
visits: reading the rewritten source at the registry patterns yields the
callback images of the original visit values. -/
theorem sourceCalls_update (f : JVal → JVal) (src : JVal) :
    (sourceCalls (updateSource f src)).map callVal
      = (sourceCalls src).map (fun pr => f (callVal pr)) := by
  by_cases h1 : keyStrEq src "versioned_id" "ffmpeg_source" = true
  · have h2 : keyStrEq src "versioned_id" "image_source" = false := keyStrEq_unique h1 (by decide)
    have h3 : keyStrEq src "versioned_id" "slideshow" = false := keyStrEq_unique h1 (by decide)
    have h4 : keyStrEq src "versioned_id" "vlc_source" = false := keyStrEq_unique h1 (by decide)
    have hpres : ∀ v, keyStrEq (dictPathMapS f src "settings.local_file") "versioned_id" v
        = keyStrEq src "versioned_id" v := fun v =>
      keyStrEq_of_jGet (jGet_mapS_ne f src "settings.local_file" "settings" ["local_file"] rfl
        "versioned_id" (by decide)) v
    rw [updateSource_eq_ffmpeg f src h1, sourceCalls, sourceCalls,
      if_true_bool ((hpres _).trans h1), if_true_bool h1,
      if_false_bool ((hpres _).trans h2), if_false_bool h2,
      if_false_bool ((hpres _).trans h3), if_false_bool h3,
      if_false_bool ((hpres _).trans h4), if_false_bool h4]
    simp only [List.append_nil, dictPathCallsS, dictPathMapS]
    exact dictPathCalls_map f src _
  · have h1f : keyStrEq src "versioned_id" "ffmpeg_source" = false := Bool.eq_false_iff.mpr h1
    by_cases h2 : keyStrEq src "versioned_id" "image_source" = true
    · have h3 : keyStrEq src "versioned_id" "slideshow" = false := keyStrEq_unique h2 (by decide)
      have h4 : keyStrEq src "versioned_id" "vlc_source" = false := keyStrEq_unique h2 (by decide)
      have hpres : ∀ v, keyStrEq (dictPathMapS f src "settings.file") "versioned_id" v
          = keyStrEq src "versioned_id" v := fun v =>
        keyStrEq_of_jGet (jGet_mapS_ne f src "settings.file" "settings" ["file"] rfl
          "versioned_id" (by decide)) v
      rw [updateSource_eq_image f src h2, sourceCalls, sourceCalls,
        if_false_bool ((hpres _).trans h1f), if_false_bool h1f,
        if_true_bool ((hpres _).trans h2), if_true_bool h2,
        if_false_bool ((hpres _).trans h3), if_false_bool h3,
        if_false_bool ((hpres _).trans h4), if_false_bool h4]
      simp only [List.nil_append, List.append_nil, dictPathCallsS, dictPathMapS]
      exact dictPathCalls_map f src _
    · have h2f : keyStrEq src "versioned_id" "image_source" = false := Bool.eq_false_iff.mpr h2
      by_cases h3 : keyStrEq src "versioned_id" "slideshow" = true
      · have h4 : keyStrEq src "versioned_id" "vlc_source" = false := keyStrEq_unique h3 (by decide)
        have hpres : ∀ v, keyStrEq (dictPathMapS f src "settings.files.value") "versioned_id" v
            = keyStrEq src "versioned_id" v := fun v =>
          keyStrEq_of_jGet (jGet_mapS_ne f src "settings.files.value" "settings" ["files", "value"]
            rfl "versioned_id" (by decide)) v
        rw [updateSource_eq_slideshow f src h3, sourceCalls, sourceCalls,
          if_false_bool ((hpres _).trans h1f), if_false_bool h1f,
          if_false_bool ((hpres _).trans h2f), if_false_bool h2f,
          if_true_bool ((hpres _).trans h3), if_true_bool h3,
          if_false_bool ((hpres _).trans h4), if_false_bool h4]
        simp only [List.nil_append, List.append_nil, dictPathCallsS, dictPathMapS]
        exact dictPathCalls_map f src _
      · have h3f : keyStrEq src "versioned_id" "slideshow" = false := Bool.eq_false_iff.mpr h3
        by_cases h4 : keyStrEq src "versioned_id" "vlc_source" = true
        · have hpres : ∀ v, keyStrEq (dictPathMapS f src "settings.playlist.value") "versioned_id" v
              = keyStrEq src "versioned_id" v := fun v =>
            keyStrEq_of_jGet (jGet_mapS_ne f src "settings.playlist.value" "settings"
              ["playlist", "value"] rfl "versioned_id" (by decide)) v
          rw [updateSource_eq_vlc f src h4, sourceCalls, sourceCalls,
            if_false_bool ((hpres _).trans h1f), if_false_bool h1f,
            if_false_bool ((hpres _).trans h2f), if_false_bool h2f,
            if_false_bool ((hpres _).trans h3f), if_false_bool h3f,
            if_true_bool ((hpres _).trans h4), if_true_bool h4]
          simp only [List.nil_append, dictPathCallsS, dictPathMapS]
          exact dictPathCalls_map f src _
        · have h4f : keyStrEq src "versioned_id" "vlc_source" = false := Bool.eq_false_iff.mpr h4
          rw [updateSource_eq_none f src h1f h2f h3f h4f, sourceCalls,
            if_false_bool h1f, if_false_bool h2f, if_false_bool h3f, if_false_bool h4f]
          simp

/-- The mutate-pass on one transition rewrites exactly the field the
read-pass visits. -/
theorem transCalls_update (f : JVal → JVal) (t : JVal) :
    (transCalls (updateTransition f t)).map callVal
      = (transCalls t).map (fun pr => f (callVal pr)) := by
  by_cases h : keyStrEq t "id" "obs_stinger_transition" = true
  · have hpres : keyStrEq (dictPathMapS f t "settings.path") "id" "obs_stinger_transition"
        = keyStrEq t "id" "obs_stinger_transition" :=
      keyStrEq_of_jGet (jGet_mapS_ne f t "settings.path" "settings" ["path"] rfl
        "id" (by decide)) _
    rw [updateTransition, if_true_bool h, transCalls, transCalls,
      if_true_bool (hpres.trans h), if_true_bool h]
    simp only [dictPathCallsS, dictPathMapS]
    exact dictPathCalls_map f t _
  · have hf : keyStrEq t "id" "obs_stinger_transition" = false := Bool.eq_false_iff.mpr h
    rw [updateTransition, if_false_bool hf, transCalls, if_false_bool hf]
    simp

theorem processSourcesCalls_update (scenes : JVal) (base : String)
    (check : String → Option String) :
    (processSourcesCalls (updateAssets scenes base check)).map callVal
      = (processSourcesCalls scenes).map
          (fun pr => strFieldMap (updatePathCb base check) (callVal pr)) := by
  have hjs : jGet (updateAssets scenes base check) "sources"
      = match jGet scenes "sources" with
        | some (.arr l) =>
          some (.arr (arrMap (updateSource (strFieldMap (updatePathCb base check))) l))
        | other => other := by
    simp only [updateAssets]
    rw [jGet_mapTop_ne _ "transitions" _ "sources" (by decide)]
    exact jGet_mapTop_self scenes "sources" _
  rw [processSourcesCalls, processSourcesCalls, hjs]
  cases hs : jGet scenes "sources" with
  | none => rfl
  | some v =>
    cases v with
    | arr l =>
      simp only []
      rw [toList_arrMap, List.map_flatten, List.map_flatten, List.map_map, List.map_map,
        List.map_map]
      congr 1
      apply List.map_congr_left
      intro s _
      exact sourceCalls_update (strFieldMap (updatePathCb base check)) s
    | str s => rfl
    | num n => rfl
    | jbool b => rfl
    | jnull => rfl
    | obj fs => rfl

theorem processTransCalls_update (scenes : JVal) (base : String)
    (check : String → Option String) :
    (processTransCalls (updateAssets scenes base check)).map callVal
      = (processTransCalls scenes).map
          (fun pr => strFieldMap (updatePathCb base check) (callVal pr)) := by
  have hjt : jGet (updateAssets scenes base check) "transitions"
      = match jGet scenes "transitions" with
        | some (.arr l) =>
          some (.arr (arrMap (updateTransition (strFieldMap (updatePathCb base check))) l))
        | other => other := by
    simp only [updateAssets]
    rw [jGet_mapTop_self]
    rw [jGet_mapTop_ne _ "sources" _ "transitions" (by decide)]
  rw [processTransCalls, processTransCalls, hjt]
  cases hs : jGet scenes "transitions" with
  | none => rfl
  | some v =>
    cases v with
    | arr l =>
      simp only []
      rw [toList_arrMap, List.map_flatten, List.map_flatten, List.map_map, List.map_map,
        List.map_map]
      congr 1
      apply List.map_congr_left
      intro t _
      exact transCalls_update (strFieldMap (updatePathCb base check)) t
    | str s => rfl
    | num n => rfl
    | jbool b => rfl
    | jnull => rfl
    | obj fs => rfl

/-- The two passes are driven by the same registry visit: reading the
mutated document at the visit positions yields exactly the rewrite images of
the original visit values. -/
theorem processVisitVals_update (scenes : JVal) (base : String)
    (check : String → Option String) :
    processVisitVals (updateAssets scenes base check)
      = (processVisitVals scenes).map (strFieldMap (updatePathCb base check)) := by
  have h1 := processSourcesCalls_update scenes base check
  have h2 := processTransCalls_update scenes base check
  rw [processVisitVals, processVisitVals, processVisit, processVisit]
  rw [List.map_append, h1, h2, List.map_map, List.map_append]
  rfl

/-- A callback that never rewrites leaves the document untouched: the
mutate-pass changes nothing outside the visited fields. -/
theorem updateAssets_noop (scenes : JVal) (base : String) :
    updateAssets scenes base (fun _ => none) = scenes := by
  have hcb : strFieldMap (updatePathCb base (fun _ => none)) = fun v => v := by
    funext v
    cases v <;> rfl
  simp only [updateAssets, hcb]
  have hus : updateSource (fun v => v) = fun s => s := by
    funext s
    simp only [updateSource, dictPathMapS, dictPathMap_id, ite_self]
  have hut : updateTransition (fun v => v) = fun t => t := by
    funext t
    simp only [updateTransition, dictPathMapS, dictPathMap_id, ite_self]
  rw [hus, hut]
  have hmt : ∀ (o : JVal) (k : String), mapTop o k (fun x => x) = o := by
    intro o k
    cases o with
    | obj fs =>
      rw [mapTop]
      cases hg : getKey fs k with
      | none => rfl
      | some v =>
        cases v with
        | arr l =>
          simp only []
          rw [arrMap_id, applyKeyFirst_self_val fs k (JVal.arr l) hg]
        | str s => rfl
        | num n => rfl
        | jbool b => rfl
        | jnull => rfl
        | obj fs2 => rfl
    | arr l => rfl
    | str s => rfl
    | num n => rfl
    | jbool b => rfl
    | jnull => rfl
  rw [hmt, hmt]

/-- Translating toward Linux never yields a platform-specific identifier:
matches are replaced by their neutral key, and non-matches were not
platform-specific to begin with. -/
theorem mapToNeutral_not_platform (x : String) : mapToNeutral x ∉ platformValues := by
  by_cases e1 : x = "av_capture_input"
  · subst e1; decide
  · by_cases e2 : x = "display_capture"
    · subst e2; decide
    · by_cases e3 : x = "dshow_input"
      · subst e3; decide
      · by_cases e4 : x = "monitor_capture"
        · subst e4; decide
        · have hid : mapToNeutral x = x := by
            simp [mapToNeutral, scanOverlays, lookupByValue, source_id_mappings, e1, e2, e3, e4]
          rw [hid]
          simp [platformValues, source_id_mappings]
          exact ⟨e1, e2, e3, e4⟩

theorem getKey_mapSourceProp_ne (sys : String) (fs : JObj) (prop key : String)
    (h : prop ≠ key) : getKey (mapSourceProp sys fs prop) key = getKey fs key := by
  rw [mapSourceProp]
  cases hg : getKey fs prop with
  | none => rfl
  | some v =>
    cases v with
    | str s => exact getKey_applyKeyFirst_ne _ fs prop key h
    | arr l => rfl
    | num n => rfl
    | jbool b => rfl
    | jnull => rfl
    | obj fs2 => rfl

theorem getKey_mapSourceProp_self (sys : String) (fs : JObj) (prop : String) :
    getKey (mapSourceProp sys fs prop) prop = match getKey fs prop with
      | some (.str s) => some (.str ((mapSourceId sys s).getD s))
      | other => other := by
  rw [mapSourceProp]
  cases hg : getKey fs prop with
  | none => exact hg
  | some v =>
    cases v with
    | str s =>
      rw [getKey_applyKeyFirst_self]
      rw [show getKey fs prop = some (JVal.str s) from hg]
      rfl
    | arr l => exact hg
    | num n => exact hg
    | jbool b => exact hg
    | jnull => exact hg
    | obj fs2 => exact hg

/-- `_fix_source_ids` translates the value of `id` and of `versioned_id` of
one source through `_map_source_id`. -/
theorem jGet_fixSource (sys : String) (src : JVal) (prop : String)
    (hp : prop = "id" ∨ prop = "versioned_id") :
    jGet (fixSource sys src) prop = match jGet src prop with
      | some (.str s) => some (.str ((mapSourceId sys s).getD s))
      | other => other := by
  cases src with
  | obj fs =>
    rw [fixSource]
    rcases hp with hp | hp
    · subst hp
      rw [jGet, getKey_mapSourceProp_ne sys _ "versioned_id" "id" (by decide),
        getKey_mapSourceProp_self sys fs "id"]
      rfl
    · subst hp
      rw [jGet, getKey_mapSourceProp_self sys _ "versioned_id",
        getKey_mapSourceProp_ne sys fs "id" "versioned_id" (by decide)]
      rfl
  | arr l => rfl
  | str s => rfl
  | num n => rfl
  | jbool b => rfl
  | jnull => rfl

/-- After the load-time normalization and any mutate-pass, the `id` and
`versioned_id` of a source are never platform-specific. -/
theorem ids_neutral (f : JVal → JVal) (s0 : JVal) (prop s : String)
    (hp : prop = "id" ∨ prop = "versioned_id")
    (hs : jGet (updateSource f (fixSource "Linux" s0)) prop = some (.str s)) :
    s ∉ platformValues := by
  have hne : prop ≠ "settings" := by rcases hp with h | h <;> (subst h; decide)
  rw [jGet_updateSource_ne f _ prop hne, jGet_fixSource "Linux" s0 prop hp] at hs
  revert hs
  cases jGet s0 prop with
  | none => intro hs; exact Option.noConfusion hs
  | some v =>
    cases v with
    | str t =>
      intro hs
      have h2 : JVal.str ((mapSourceId "Linux" t).getD t) = JVal.str s := Option.some.inj hs
      have h3 : (mapSourceId "Linux" t).getD t = s := by injection h2
      have h4 : (mapSourceId "Linux" t).getD t = mapToNeutral t := by
        rw [mapSourceId, if_pos rfl]
        rfl
      rw [← h3, h4]
      exact mapToNeutral_not_platform t
    | arr l => intro hs; exact JVal.noConfusion (Option.some.inj hs)
    | num n => intro hs; exact JVal.noConfusion (Option.some.inj hs)
    | jbool b => intro hs; exact JVal.noConfusion (Option.some.inj hs)
    | jnull => intro hs; exact JVal.noConfusion (Option.some.inj hs)
    | obj fs2 => intro hs; exact JVal.noConfusion (Option.some.inj hs)

theorem jGet_updateAssets_sources (scenes : JVal) (base : String)
    (check : String → Option String) :
    jGet (updateAssets scenes base check) "sources"
      = match jGet scenes "sources" with
        | some (.arr l) =>
          some (.arr (arrMap (updateSource (strFieldMap (updatePathCb base check))) l))
        | other => other := by
  simp only [updateAssets]
  rw [jGet_mapTop_ne _ "transitions" _ "sources" (by decide)]
  exact jGet_mapTop_self scenes "sources" _

/-- The sources the export pass serializes are the parse-normalized sources,
each further rewritten only at its registered asset fields. -/
theorem sourcesList_updateAssets_parse (doc : JVal) (base : String)
    (check : String → Option String) :
    sourcesList (updateAssets (parseEffect doc) base check)
      = (sourcesList doc).map
          (fun s0 => updateSource (strFieldMap (updatePathCb base check)) (fixSource "Linux" s0)) := by
  rw [sourcesList, sourcesList, jGet_updateAssets_sources]
  have hparse : jGet (parseEffect doc) "sources"
      = match jGet doc "sources" with
        | some (.arr l) => some (.arr (arrMap (fixSource "Linux") l))
        | other => other := by
    rw [parseEffect, fixSourceIds]
    exact jGet_mapTop_self doc "sources" _
  rw [hparse]
  cases hs : jGet doc "sources" with
  | none => rfl
  | some v =>
    cases v with
    | arr l =>
      simp only []
      rw [toList_arrMap, toList_arrMap, List.map_map]
      rfl
    | str s => rfl
    | num n => rfl
    | jbool b => rfl
    | jnull => rfl
    | obj fs => rfl

theorem dictPathCallsObj_absent : ∀ (fs : JObj) (k : String) (rest : List String),
    getKey fs k = none → dictPathCallsObj fs k rest = []
  | .onil, _, _, _ => rfl
  | .ocons k' v fs', k, rest, h => by
    rw [getKey] at h
    by_cases hk : k' = k
    · rw [if_pos hk] at h
      exact Option.noConfusion h
    · rw [if_neg hk] at h
      rw [dictPathCallsObj, if_neg hk]
      exact dictPathCallsObj_absent fs' k rest h

theorem writeAssets_ok (fs : FS) : ∀ (l : List String),
    (∀ a ∈ l, (isfile fs a || isdir fs a) = true) →
    writeAssets fs l = .ok (l.map (fun a => assetPathInArchive ++ "/" ++ partitionTail a))
  | [], _ => rfl
  | a :: rest, h => by
    rw [writeAssets, if_pos (h a (List.mem_cons_self a rest)),
      writeAssets_ok fs rest (fun b hb => h b (List.mem_cons_of_mem a hb))]
    rfl

theorem writeAssets_err (fs : FS) : ∀ (l : List String) (a : String), a ∈ l →
    (isfile fs a || isdir fs a) = false → ∃ e, writeAssets fs l = .error e
  | [], a, ha, _ => absurd ha (List.not_mem_nil a)
  | b :: rest, a, ha, hcond => by
    by_cases hb : (isfile fs b || isdir fs b) = true
    · have har : a ∈ rest := by
        rcases List.mem_cons.mp ha with h | h
        · subst h
          rw [hcond] at hb
          exact absurd hb (by decide)
        · exact h
      obtain ⟨e, he⟩ := writeAssets_err fs rest a har hcond
      refine ⟨e, ?_⟩
      rw [writeAssets, if_pos hb, he]
    · exact ⟨b, by rw [writeAssets, if_neg hb]⟩

/-! ### Claim theorems -/

/-- C1 counterexample: the claim says a field whose value the archive
formatter returns unchanged (here `"/gone/img.png"`, which does not start
with the `"assets"` prefix) is left untouched by the mutate-pass; in fact
`_update_assets` treats the truthy unchanged string as a token and
overwrites the field with `base + "/" + ""` = `"/dest/"`. -/
theorem claim1_counterexample :
    zipFormatFileName "assets" "/gone/img.png" = "/gone/img.png" ∧
    firstSourceSettingStr docC1 "file" = some "/gone/img.png" ∧
    firstSourceSettingStr
      (updateAssets docC1 "/dest" (fun s => some (zipFormatFileName "assets" s))) "file"
      = some "/dest/" ∧
    "/dest/" ≠ "/gone/img.png" :=
  ⟨rfl, rfl, rfl, by decide⟩

/-- C1 (amended): in the mutate-pass, a field is left untouched only when
the formatter returns `None` or the empty string; a genuine Token
`b ++ "/./" ++ r` makes the field `base ++ "/" ++ r`; and any other
non-empty marker-free return (including the archive formatter's unchanged
path) overwrites the field with `base ++ "/"`. -/
theorem claim1_update_path_amended (base : String) (check : String → Option String) (v : String) :
    (check v = none → updatePathCb base check v = v) ∧
    (∀ b r, check v = some (b ++ "/./" ++ r) → countMarker b = 0 →
      ¬ ['/', '.'] <:+ b.toList → updatePathCb base check v = base ++ "/" ++ r) ∧
    (∀ c, check v = some c → c ≠ "" → countMarker c = 0 →
      updatePathCb base check v = base ++ "/") := by
  refine ⟨fun h => ?_, fun b r hc hb0 hbe => ?_, fun c hc hne h0 => ?_⟩
  · rw [updatePathCb, h]
  · rw [updatePathCb, hc]
    have hne : ¬ (b ++ "/./" ++ r) = "" := by
      intro h0
      have h1 : (b ++ "/./" ++ r).toList = [] := by rw [h0]; rfl
      rw [sToList_append, sToList_append] at h1
      simp at h1
    show (if (b ++ "/./" ++ r) = "" then v else base ++ "/" ++ partitionTail (b ++ "/./" ++ r))
      = base ++ "/" ++ r
    rw [if_neg hne]
    have hpt : partitionTail (b ++ "/./" ++ r) = r := by
      rw [partitionTail,
        show (b ++ "/./" ++ r).toList = b.toList ++ '/' :: '.' :: '/' :: r.toList from by
          rw [sToList_append, sToList_append]; simp,
        partAfter_sandwich _ _ hb0 hbe, asString_toList]
    rw [hpt]
  · rw [updatePathCb, hc]
    show (if c = "" then v else base ++ "/" ++ partitionTail c) = base ++ "/"
    rw [if_neg hne]
    have hpt : partitionTail c = "" := by
      rw [partitionTail, partAfter_zero _ h0]
      rfl
    rw [hpt, String.append_empty]

/-- C1 witness: a Token `"a/./b"` rewrites the field to `"/dest/b"`. -/
theorem claim1_witness : updatePathCb "/dest" (fun _ => some "a/./b") "x" = "/dest/b" :=
  (claim1_update_path_amended "/dest" (fun _ => some "a/./b") "x").2.1 "a" "b" rfl
    (by decide) (by decide)

/-- C2 counterexample: with an asset list naming a file that does not exist,
`export_scenes` raises out of `zip.write` — no warning, no skipped member,
no archive with `scene-collection.json` — contradicting the claim that
export records a warning, omits the asset and continues. -/
theorem claim2_counterexample :
    exportScenes ⟨[], []⟩ docC1 ["/d/./missing.png"] = .error "/d/./missing.png" := rfl

/-- C2 (amended): `export_scenes` writes `scene-collection.json` and then
one member per listed asset when every listed asset exists on disk; when
some listed asset is missing, the export aborts with the exception from
`zip.write` instead of warning and skipping. -/
theorem claim2_export_amended (fs : FS) (scenes : JVal) (assets : List String) :
    ((∀ a ∈ assets, (isfile fs a || isdir fs a) = true) →
      exportScenes fs scenes assets
        = .ok (updateAssets scenes assetPathInArchive (formatFileName fs),
            "scene-collection.json"
              :: assets.map (fun a => assetPathInArchive ++ "/" ++ partitionTail a))) ∧
    (∀ a, a ∈ assets → (isfile fs a || isdir fs a) = false →
      ∃ e, exportScenes fs scenes assets = .error e) := by
  constructor
  · intro h
    simp only [exportScenes]
    rw [writeAssets_ok fs assets h]
  · intro a ha hc
    obtain ⟨e, he⟩ := writeAssets_err fs assets a ha hc
    refine ⟨e, ?_⟩
    simp only [exportScenes]
    rw [he]

/-- C2 witness: with the single listed asset present on disk the archive
holds the document member followed by the asset member. -/
theorem claim2_witness :
    exportScenes ⟨["/x/f.png"], []⟩ docC1 ["/x/./f.png"]
      = .ok (updateAssets docC1 assetPathInArchive (formatFileName ⟨["/x/f.png"], []⟩),
          "scene-collection.json"
            :: ["/x/./f.png"].map (fun a => assetPathInArchive ++ "/" ++ partitionTail a)) :=
  (claim2_export_amended ⟨["/x/f.png"], []⟩ docC1 ["/x/./f.png"]).1 (by decide)

/-- C3: device identifier translation is a left-and-right inverse on every
table pair: for each OS overlay entry `(k, v)`, translating the
platform-specific `v` to neutral and back yields `v`, and translating the
neutral `k` to the platform and back yields `k`. -/
theorem claim3_translation_round_trip :
    ∀ os ovl, (os, ovl) ∈ source_id_mappings → ∀ k v, (k, v) ∈ ovl →
      mapSourceId os (mapToNeutral v) = some v ∧
      mapSourceId os k = some v ∧ mapToNeutral v = k := by
  intro os ovl h
  fin_cases h
  all_goals
    intro k v h2
    fin_cases h2 <;> exact ⟨by decide, by decide, by decide⟩

/-- C3 witness: the Darwin camera pair round-trips both ways. -/
theorem claim3_witness :
    mapSourceId "Darwin" (mapToNeutral "av_capture_input") = some "av_capture_input" ∧
    mapSourceId "Darwin" "v4l2_input" = some "av_capture_input" ∧
    mapToNeutral "av_capture_input" = "v4l2_input" :=
  claim3_translation_round_trip "Darwin"
    [("v4l2_input", "av_capture_input"), ("xshm_input", "display_capture")] (by decide)
    "v4l2_input" "av_capture_input" (by decide)

/-- C4: the tree visitor invokes the callback once per matching leaf field
with the containing mapping and the key; a sequence node fans out over its
elements; an absent pattern key silently ends the branch; and on the spec's
example document with pattern `["a", "c"]` the callback runs exactly twice,
first with value `"bar"`. -/
theorem claim4_dict_path_visitor :
    ((dictPathCalls exDoc ["a", "c"]).map callVal = [.str "bar", .str "baz"] ∧
      (dictPathCalls exDoc ["a", "c"]).length = 2) ∧
    (∀ (x : JVal) (xs : JArr) (path : List String),
      dictPathCalls (.arr (.acons x xs)) path
        = dictPathCalls x path ++ dictPathCalls (.arr xs) path) ∧
    (∀ (fields : JObj) (k : String) (rest : List String), getKey fields k = none →
      dictPathCalls (.obj fields) (k :: rest) = []) ∧
    (∀ (fields : JObj) (k : String) (v : JVal), getKey fields k = some v →
      dictPathCalls (.obj fields) [k] = [(fields, k)] ∧ callVal (fields, k) = v) := by
  refine ⟨⟨rfl, rfl⟩, fun x xs path => rfl, fun fields k rest hk => ?_, fun fields k v hk => ?_⟩
  · have hmem : memKey fields k = false := by rw [memKey, hk]; rfl
    cases rest with
    | nil => rw [dictPathCalls, if_false_bool hmem]
    | cons k2 r =>
      rw [dictPathCalls]
      exact dictPathCallsObj_absent fields k (k2 :: r) hk
  · have hmem : memKey fields k = true := by rw [memKey, hk]; rfl
    refine ⟨by rw [dictPathCalls, if_true_bool hmem], ?_⟩
    rw [callVal]
    simp only []
    rw [hk]
    rfl

/-- C4 witness: a branch whose pattern key is absent yields no callback. -/
theorem claim4_witness :
    dictPathCalls (JVal.obj (.ocons "b" (.str "foo") .onil)) ["a", "c"] = [] :=
  claim4_dict_path_visitor.2.2.1 (.ocons "b" (.str "foo") .onil) "a" ["c"] rfl

/-- C5: archive-backed expansion returns an exact member as a singleton and
otherwise exactly the members extending `path + "/"`; on the spec's member
list, expanding `"assets/dir"` yields the two files under it, and
`"assets/image0.jpg"` never picks up the near-miss `"assets/image0.jpg1"`. -/
theorem claim5_zip_expanding_dirs (names : List String) (path : String) :
    (path ∈ names → zipFormatExpandingDirs names path = [path]) ∧
    (path ∉ names → zipFormatExpandingDirs names path
      = names.filter (fun n => sStartsWith n (path ++ "/"))) ∧
    zipFormatExpandingDirs names4 "assets/dir"
      = ["assets/dir/image1.jpg", "assets/dir/image2.jpg"] ∧
    zipFormatExpandingDirs names4 "assets/image0.jpg" = ["assets/image0.jpg"] ∧
    "assets/image0.jpg1" ∉ zipFormatExpandingDirs names4 "assets/image0.jpg" := by
  refine ⟨fun h => ?_, fun h => ?_, by decide, by decide, by decide⟩
  · rw [zipFormatExpandingDirs, if_pos h]
  · rw [zipFormatExpandingDirs, if_neg h]

/-- C5 witness: an exact archive member expands to itself alone. -/
theorem claim5_witness : zipFormatExpandingDirs ["m/a.png"] "m/a.png" = ["m/a.png"] :=
  (claim5_zip_expanding_dirs ["m/a.png"] "m/a.png").1 (by decide)

/-- C6: on a path that is neither file nor directory the filesystem
expansion is empty; on a directory it yields one token per direct child
file, excluding names starting with `"."`, and never surfaces files inside
subdirectories (only direct children match); concretely, expanding the
directory of `fsEx` surfaces its plain file only. -/
theorem claim6_fs_expanding_dirs (fs : FS) (path : String)
    (hfs : ∀ e ∈ fs.files ++ fs.dirs, normPath e = e) :
    (isfile fs path = false → isdir fs path = false → formatExpandingDirs fs path = []) ∧
    (isfile fs path = false → isdir fs path = true →
      ∀ t, t ∈ formatExpandingDirs fs path ↔
        ∃ e, e ∈ fs.files ∧ isDirectChild (normPath path) e = true ∧
          sStartsWith (pyBasename e) "." = false ∧
          t = pyDirname path ++ "/./" ++ relTo e (normPath (pyDirname path))) ∧
    (formatExpandingDirs fsEx "/a/b" = ["/a/./b/f1.jpg"] ∧
      formatExpandingDirs fsEx "/a/none" = []) := by
  refine ⟨fun h1 h2 => ?_, fun h1 h2 t => ?_, by decide, by decide⟩
  · rw [formatExpandingDirs, if_false_bool h1, if_false_bool h2]
  · rw [formatExpandingDirs, if_false_bool h1, if_true_bool h2, List.mem_filterMap]
    constructor
    · rintro ⟨e, he, hsome⟩
      rw [childEntries, List.mem_filter] at he
      obtain ⟨hmem, hchild⟩ := he
      revert hsome
      split
      · intro hsome
        rw [Option.some.injEq] at hsome
        rename_i hcond
        rw [Bool.and_eq_true] at hcond
        obtain ⟨hdot, hfile⟩ := hcond
        refine ⟨e, ?_, hchild, ?_, hsome.symm⟩
        · rw [isfile, hfs e hmem] at hfile
          exact List.mem_of_elem_eq_true hfile
        · rw [Bool.not_eq_eq_eq_not] at hdot
          exact hdot
      · intro hsome
        exact Option.noConfusion hsome
    · rintro ⟨e, hef, hchild, hdot, ht⟩
      refine ⟨e, ?_, ?_⟩
      · rw [childEntries, List.mem_filter]
        exact ⟨List.mem_append_left _ hef, hchild⟩
      · have hfile : isfile fs e = true := by
          rw [isfile, hfs e (List.mem_append_left _ hef)]
          exact List.elem_eq_true_of_mem hef
        rw [hdot, hfile]
        simp only [Bool.not_false, Bool.and_self, if_true]
        rw [ht]

/-- C6 witness: a path that exists neither as file nor directory expands to
nothing. -/
theorem claim6_witness : formatExpandingDirs fsEx "/a/none" = [] :=
  (claim6_fs_expanding_dirs fsEx "/a/none" (by decide)).1 (by decide) (by decide)

/-- C7 counterexample: the claim says every token of `format_file_name` /
`format_expanding_dirs` carries exactly one `"/./"` marker for any input;
but the archive expansion returns member names with no marker at all, and a
path already containing the marker produces a token with two. -/
theorem claim7_counterexample :
    zipFormatExpandingDirs ["assets/a.jpg"] "assets/a.jpg" = ["assets/a.jpg"] ∧
    countMarker "assets/a.jpg" = 0 ∧
    formatFileName ⟨["/a/b"], []⟩ "/a/./b" = some "/a/././b" ∧
    countMarker "/a/././b" = 2 := by decide

/-- C7 (amended): for marker-free inputs the filesystem formatter's tokens,
and the archive formatter's `format_file_name` tokens under a well-formed
prefix, carry exactly one marker and split back into base and verbatim
remainder; the archive `format_expanding_dirs` is exempt — it returns raw
member names with no marker. -/
theorem claim7_token_marker_amended :
    (∀ (fs : FS) (path : String), (isfile fs path || isdir fs path) = true →
      countMarker path = 0 →
      formatFileName fs path = some (pyDirname path ++ "/./" ++ pyBasename path) ∧
      countMarker (pyDirname path ++ "/./" ++ pyBasename path) = 1 ∧
      partitionTail (pyDirname path ++ "/./" ++ pyBasename path) = pyBasename path) ∧
    (∀ (fs : FS) (path t : String), countMarker path = 0 →
      (∀ e, e ∈ fs.files ++ fs.dirs → countMarker e = 0 ∧ sStartsWith e "/" = true) →
      t ∈ formatExpandingDirs fs path → countMarker t = 1) ∧
    (∀ (pfx path : String), countMarker pfx = 0 → ¬ ['/', '.'] <:+ pfx.toList →
      sStartsWith path (pfx ++ "/") = true → countMarker path = 0 →
      zipFormatFileName pfx path = pfx ++ "/./" ++ sDrop path (sLen pfx + 1) ∧
      countMarker (zipFormatFileName pfx path) = 1 ∧
      partitionTail (zipFormatFileName pfx path) = sDrop path (sLen pfx + 1)) ∧
    (∀ (names : List String) (path t : String), (∀ e ∈ names, countMarker e = 0) →
      t ∈ zipFormatExpandingDirs names path → countMarker t = 0) := by
  refine ⟨fun fs path hex h0 => ?_, expandToken_marker, fun pfx path h1 h2 h3 h4 => ?_,
    zipExpand_no_marker⟩
  · exact ⟨by rw [formatFileName, if_pos hex], (fileToken_spec path h0).1,
      (fileToken_spec path h0).2⟩
  · obtain ⟨he, hm, hp⟩ := zipToken_spec pfx path h1 h2 h3 h4
    exact ⟨he, by rw [he]; exact hm, by rw [he]; exact hp⟩

/-- C7 witness: the token of an existing marker-free file has one marker and
splits back into its base name. -/
theorem claim7_witness :
    formatFileName ⟨["/w/f.png"], []⟩ "/w/f.png"
      = some (pyDirname "/w/f.png" ++ "/./" ++ pyBasename "/w/f.png") ∧
    countMarker (pyDirname "/w/f.png" ++ "/./" ++ pyBasename "/w/f.png") = 1 ∧
    partitionTail (pyDirname "/w/f.png" ++ "/./" ++ pyBasename "/w/f.png")
      = pyBasename "/w/f.png" :=
  claim7_token_marker_amended.1 ⟨["/w/f.png"], []⟩ "/w/f.png" (by decide) (by decide)

/-- C8: the read-pass and the mutate-pass visit the identical set of fields:
reading the mutated document at the shared registry visit yields exactly the
rewrite images of the original visit values, and a callback that never
rewrites leaves the document bit-identical — nothing outside the visited
fields is touched. -/
theorem claim8_passes_share_registry (scenes : JVal) (base : String)
    (check : String → Option String) :
    processVisitVals (updateAssets scenes base check)
      = (processVisitVals scenes).map (strFieldMap (updatePathCb base check)) ∧
    updateAssets scenes base (fun _ => none) = scenes :=
  ⟨processVisitVals_update scenes base check, updateAssets_noop scenes base⟩

/-- C9: every source the export pass serializes carries neutral identifiers:
after `_parse`'s `_fix_source_ids()` (target `"Linux"`) and the export
mutate-pass (which performs no translation and preserves `id` and
`versioned_id`), no source's `id` or `versioned_id` is a platform-specific
identifier from the table. -/
theorem claim9_load_normalizes_ids (doc : JVal) (base : String)
    (check : String → Option String) (src : JVal) (prop s : String)
    (hmem : src ∈ sourcesList (updateAssets (parseEffect doc) base check))
    (hp : prop = "id" ∨ prop = "versioned_id")
    (hs : jGet src prop = some (.str s)) :
    s ∉ platformValues := by
  rw [sourcesList_updateAssets_parse, List.mem_map] at hmem
  obtain ⟨s0, _, rfl⟩ := hmem
  exact ids_neutral _ s0 prop s hp hs

/-- C9 witness: a macOS capture id loaded from `docW` is serialized as the
neutral `v4l2_input`, which is not platform-specific. -/
theorem claim9_witness : "v4l2_input" ∉ platformValues :=
  claim9_load_normalizes_ids docW "assets" (fun _ => none)
    (.obj (.ocons "id" (.str "v4l2_input") (.ocons "versioned_id" (.str "v4l2_input") .onil)))
    "id" "v4l2_input"
    (by
      have h : sourcesList (updateAssets (parseEffect docW) "assets" (fun _ => none))
          = [JVal.obj (.ocons "id" (.str "v4l2_input")
              (.ocons "versioned_id" (.str "v4l2_input") .onil))] := rfl
      rw [h]
      exact List.mem_singleton_self _)
    (Or.inl rfl) rfl

/-- C10: the import extraction loop writes every archive member whose name
starts with the asset prefix, and only those; the document's computed asset
list is never consulted — concretely, a member referenced by no document
field (asset list empty) is still extracted. -/
theorem claim10_import_extraction (names : List String) (assetDir : String) :
    (∀ a, a ∈ names → sStartsWith a assetPathInArchive = true →
      (a, assetDir ++ "/" ++ sDrop a (sLen assetPathInArchive + 1))
        ∈ importExtractTargets names assetDir) ∧
    (∀ pr, pr ∈ importExtractTargets names assetDir →
      pr.1 ∈ names ∧ sStartsWith pr.1 assetPathInArchive = true) ∧
    (findAssets docC1 (zipFormatExpandingDirs ["scene-collection.json", "assets/unused.png"]) = [] ∧
      ("assets/unused.png", "/dst/unused.png")
        ∈ importExtractTargets ["scene-collection.json", "assets/unused.png"] "/dst") := by
  refine ⟨fun a ha hsw => ?_, fun pr hpr => ?_, rfl, by decide⟩
  · rw [importExtractTargets, List.mem_map]
    exact ⟨a, List.mem_filter.mpr ⟨ha, hsw⟩, rfl⟩
  · rw [importExtractTargets, List.mem_map] at hpr
    obtain ⟨a, haf, rfl⟩ := hpr
    obtain ⟨ha, hsw⟩ := List.mem_filter.mp haf
    exact ⟨ha, hsw⟩

/-- C10 witness: a prefix-matching member is among the extraction targets. -/
theorem claim10_witness :
    ("assets/x.png", "/d" ++ "/" ++ sDrop "assets/x.png" (sLen assetPathInArchive + 1))
      ∈ importExtractTargets ["assets/x.png"] "/d" :=
  (claim10_import_extraction ["assets/x.png"] "/d").1 "assets/x.png" (by decide) (by decide)
